import Mathlib

/-!
Verification of the ReactionMechanizer core against its specification.

The development shallowly embeds the two source modules
  src/reaction_mechanizer/pathway/reaction.py
  src/reaction_mechanizer/drawing/mechanism_reaction_visualizer.py
into Lean. Python strings are lists of characters, Python dicts are
insertion-ordered association lists, Python ints are arbitrary-precision
integers, and Python floats are IEEE-754 binary64 values carried as their
exact rational values (binary64 arithmetic on in-range values is exact
rational arithmetic followed by round-to-nearest-even at 53 significant
bits). Fallible code returns Except over a small taxonomy of the Python
exceptions that can escape.
-/

set_option maxRecDepth 20000

attribute [local semireducible] Rat.mul Rat.inv Rat.add Rat.sub Rat.ofScientific

namespace ReactionMechanizer

/-- Python strings, modeled as lists of characters. -/
abbrev Str := List Char

/-- Test for the separator "->" occurring in a string (Python: "->" in s). -/
def containsArrow : Str → Bool
  | [] => false
  | [_] => false
  | c :: d :: t => (decide (c = '-') && decide (d = '>')) || containsArrow (d :: t)

/-- Prepend a character to the first piece of a split result. -/
def consH (c : Char) : List Str → List Str
  | h :: r => (c :: h) :: r
  | [] => [[c]]

/-- Python s.split on the two-character separator "->": scan left to right,
consuming each non-overlapping occurrence. -/
def splitArrow : Str → List Str
  | [] => [[]]
  | [c] => [[c]]
  | c :: d :: t =>
    if c = '-' ∧ d = '>' then [] :: splitArrow t
    else consH c (splitArrow (d :: t))

/-- Python s.split on a one-character separator. -/
def splitOnChar (sep : Char) : Str → List Str
  | [] => [[]]
  | c :: t => if c = sep then [] :: splitOnChar sep t else consH c (splitOnChar sep t)

/-- Python sep.join of a list of strings. -/
def joinSep (sep : Str) : List Str → Str
  | [] => []
  | [x] => x
  | x :: y :: rest => x ++ sep ++ joinSep sep (y :: rest)

/-- The whitespace removal of str_to_step:
s.replace backslash-t with nothing, then remove every space character. -/
def pyStrip (s : Str) : Str := s.filter (fun c => !(c == ' ' || c == '\t'))

/-- Python substring membership test (pat in s). -/
def containsSub (pat : Str) : Str → Bool
  | [] => pat.isEmpty
  | c :: t => pat.isPrefixOf (c :: t) || containsSub pat t

/-- The decimal digit character for a digit value below ten. -/
def natDigitChar (n : ℕ) : Char := Char.ofNat (48 + n)

/-- Decimal digits of a natural number below 10 to the fuel, least
significant first. -/
def natToDigitsF : ℕ → ℕ → List Char
  | 0, _ => []
  | fuel + 1, n =>
    if n < 10 then [natDigitChar n]
    else natDigitChar (n % 10) :: natToDigitsF fuel (n / 10)

/-- Python str of a nonnegative int: decimal digits, most significant first.
The fuel n + 1 always suffices. -/
def natRepr (n : ℕ) : Str := (natToDigitsF (n + 1) n).reverse

/-- Python str of an int. -/
def intRepr (z : ℤ) : Str := if z < 0 then '-' :: natRepr z.natAbs else natRepr z.toNat

/-- Value of one decimal digit character. -/
def digitVal (c : Char) : ℕ := c.toNat - 48

/-- Python int() on a string of decimal digits. -/
def natOfDigits (l : Str) : ℕ := l.foldl (fun a c => 10 * a + digitVal c) 0

/-- Floor of a rational: the denominator is positive, so floor division of
numerator by denominator. -/
def ratFloor (q : ℚ) : ℤ := Int.fdiv q.num q.den

/-- Round a rational to the nearest integer with ties to even (an even
remainder test on the floor): the rounding both of IEEE-754 binary64
operations and of the Python built-in round. -/
def roundNE (q : ℚ) : ℤ :=
  let f := ratFloor q
  let r := q - f
  if r < 1 / 2 then f else if 1 / 2 < r then f + 1 else if f % 2 = 0 then f else f + 1

/-- Fuel-bounded base-2 logarithm of a natural number, the fuel large enough
for every value in this development. -/
def natLog2F : ℕ → ℕ → ℕ
  | 0, _ => 0
  | fuel + 1, n => if 2 ≤ n then natLog2F fuel (n / 2) + 1 else 0

/-- Floor of the base-2 logarithm of a natural number. -/
def natLog2 (n : ℕ) : ℕ := natLog2F 4096 n

/-- Rational power with a natural exponent, by plain recursion. -/
def powQ (b : ℚ) : ℕ → ℚ
  | 0 => 1
  | n + 1 => b * powQ b n

/-- Rational power with an integer exponent (the base is nonzero wherever
this is used). -/
def qpow (b : ℚ) (e : ℤ) : ℚ :=
  if 0 ≤ e then powQ b e.toNat else 1 / powQ b (-e).toNat

/-- Floor of the base-2 logarithm of the positive rational a / b, from the
bit lengths of numerator and denominator. -/
def ratFloorLog2 (a b : ℕ) : ℤ :=
  if b * 2 ^ natLog2 a ≤ a * 2 ^ natLog2 b
  then (natLog2 a : ℤ) - natLog2 b
  else (natLog2 a : ℤ) - natLog2 b - 1

/-- Round a positive rational to the nearest binary64 value (53 significant
bits, ties to even), as its exact rational value. -/
def roundDoublePos (q : ℚ) : ℚ :=
  let e : ℤ := ratFloorLog2 q.num.toNat q.den
  (roundNE (q * qpow 2 (52 - e)) : ℚ) * qpow 2 (e - 52)

/-- Round a rational to the nearest binary64 value. Overflow and subnormals
are ignored: no value in this development comes near them. -/
def roundDouble (q : ℚ) : ℚ :=
  if q = 0 then 0
  else if q < 0 then -roundDoublePos (-q) else roundDoublePos q

/-- A Python number as stored in the stoichiometric dictionaries: an int
(arbitrary precision) or a float (a binary64, carried as its exact value). -/
inductive PyNum where
  | int (n : ℤ)
  | float (q : ℚ)
  deriving DecidableEq, Repr

/-- Numeric value of a Python number. -/
def PyNum.val : PyNum → ℚ
  | .int n => (n : ℚ)
  | .float q => q

/-- Python addition: int plus int stays int; once a float is involved the
result is the binary64 rounding of the exact sum. -/
def pyAdd : PyNum → PyNum → PyNum
  | .int a, .int b => .int (a + b)
  | a, b => .float (roundDouble (a.val + b.val))

/-- Python numeric equality (==): ints and floats compare by value. -/
def pyNumEq (a b : PyNum) : Bool := a.val == b.val

/-- Python float division of two ints: exact quotient rounded to binary64. -/
def pyDivInt (a b : ℕ) : ℚ := roundDouble ((a : ℚ) / (b : ℚ))

/-- Number of decimal shifts needed to bring a rational in (0, 1) to at least
1, by fuel-bounded search: the negated floor of its base-10 logarithm. -/
def negLog10Aux : ℕ → ℚ → ℕ
  | 0, _ => 0
  | fuel + 1, q => if 1 ≤ q * 10 then 1 else negLog10Aux fuel (q * 10) + 1

/-- Fuel-bounded base-10 logarithm of a natural number. -/
def natLog10F : ℕ → ℕ → ℕ
  | 0, _ => 0
  | fuel + 1, n => if 10 ≤ n then natLog10F fuel (n / 10) + 1 else 0

/-- Floor of the base-10 logarithm of a positive rational. -/
def ratFloorLog10 (q : ℚ) : ℤ :=
  if 1 ≤ q then (natLog10F 4096 (ratFloor q).toNat : ℤ) else -(negLog10Aux 400 q : ℤ)

/-- The correctly rounded p-significant-digit decimal of a positive rational,
as digit value m and decimal exponent e with value m * 10 ^ (e - p + 1);
rounding overflow (all nines rounding up) renormalizes. -/
def sigRound (q : ℚ) (p : ℕ) : ℤ × ℤ :=
  let e := ratFloorLog10 q
  let m := roundNE (q / qpow 10 (e - (p : ℤ) + 1))
  if m = 10 ^ p then (m / 10, e + 1) else (m, e)

/-- Fixed-point rendering of a digit string with decimal exponent e, in the
style of the Python float repr (an integral value gets a trailing .0). -/
def formatFixed (digits : Str) (e : ℤ) : Str :=
  if (digits.length : ℤ) - 1 ≤ e then
    digits ++ List.replicate (e - ((digits.length : ℤ) - 1)).toNat '0' ++ ['.', '0']
  else if 0 ≤ e then
    digits.take (e + 1).toNat ++ '.' :: digits.drop (e + 1).toNat
  else
    '0' :: '.' :: List.replicate (-e - 1).toNat '0' ++ digits

/-- Scientific rendering of a digit string with decimal exponent e, in the
style of the Python float repr (two-digit minimum exponent field). -/
def formatSci (digits : Str) (e : ℤ) : Str :=
  (match digits with
   | [d] => [d]
   | d :: rest => d :: '.' :: rest
   | [] => []) ++
  'e' :: (if e < 0 then '-' else '+') ::
  (let a := natRepr e.natAbs; if a.length < 2 then '0' :: a else a)

/-- Shortest round-tripping decimal of a positive binary64 value: try one
significant digit, then two, up to seventeen, taking the first correctly
rounded decimal whose binary64 rounding gives the value back; format fixed
for decimal exponents in [-4, 16), scientific outside. This is the output of
the CPython float repr. -/
def reprPosAux : ℕ → ℕ → ℚ → Str
  | 0, _, _ => []
  | fuel + 1, p, q =>
    let me := sigRound q p
    let v : ℚ := (me.1 : ℚ) * qpow 10 (me.2 - (p : ℤ) + 1)
    if roundDouble v = q then
      let ds := natRepr me.1.natAbs
      if -4 ≤ me.2 ∧ me.2 < 16 then formatFixed ds me.2 else formatSci ds me.2
    else reprPosAux fuel (p + 1) q

/-- Python repr (= str) of a float, from its exact rational value. -/
def reprDouble (q : ℚ) : Str :=
  if q = 0 then ['0', '.', '0']
  else if q < 0 then '-' :: reprPosAux 17 1 (-q)
  else reprPosAux 17 1 q

/-- Python str of an int or float coefficient. -/
def pyNumRepr : PyNum → Str
  | .int n => intRepr n
  | .float q => reprDouble q

/-! ### Python dicts as insertion-ordered association lists -/

/-- Python dict lookup. A dict never holds a key twice, so first match is
the match. -/
def alLookup {β : Type} (m : List (Str × β)) (k : Str) : Option β :=
  match m with
  | [] => none
  | (k', v) :: t => if k' = k then some v else alLookup t k

/-- Python dict membership test (k in d). -/
def alMem {β : Type} (m : List (Str × β)) (k : Str) : Bool := (alLookup m k).isSome

/-- Python dict assignment d[k] = v: overwrite in place when the key is
present, else append (dicts preserve insertion order). -/
def alSet {β : Type} (m : List (Str × β)) (k : Str) (v : β) : List (Str × β) :=
  match m with
  | [] => [(k, v)]
  | (k', v') :: t => if k' = k then (k, v) :: t else (k', v') :: alSet t k v

/-- A stoichiometric map: species name to coefficient, insertion ordered. -/
abbrev StoichMap := List (Str × PyNum)

/-- Python dict inclusion with numeric value comparison, one half of dict
equality. -/
def smSubDict (a b : StoichMap) : Bool :=
  a.all fun kv =>
    match alLookup b kv.1 with
    | some v => pyNumEq kv.2 v
    | none => false

/-- Python dict equality (==): the same keys, with values numerically
equal. -/
def smEqB (a b : StoichMap) : Bool := smSubDict a b && smSubDict b a

/-! ### SimpleStep -/

/-- A species name carrying a liquid or solid phase marker
(Python: "(l)" in thing or "(s)" in thing). -/
def lsTagged (name : Str) : Bool :=
  containsSub ['(', 'l', ')'] name || containsSub ['(', 's', ')'] name

/-- One elementary reaction step, after the constructor has segregated the
liquid/solid-tagged participants out of the mass-action maps. -/
structure SimpleStep where
  reactants : StoichMap
  products : StoichMap
  liquid_solid_reactants : StoichMap
  liquid_solid_products : StoichMap
  kf : ℚ
  kr : ℚ
  deriving DecidableEq, Repr

/-- One iteration of the segregation loop in the SimpleStep constructor:
phase-tagged names go to the liquid/solid dict, the rest accumulate into the
mass-action dict, summing on a repeated key. -/
def initFold (acc : StoichMap × StoichMap) (kv : Str × PyNum) : StoichMap × StoichMap :=
  if lsTagged kv.1 then (alSet acc.1 kv.1 kv.2, acc.2)
  else
    match alLookup acc.2 kv.1 with
    | some old => (acc.1, alSet acc.2 kv.1 (pyAdd old kv.2))
    | none => (acc.1, alSet acc.2 kv.1 kv.2)

/-- The SimpleStep constructor: segregate both input maps and zero the rate
constants. -/
def mkSimpleStep (reactants products : StoichMap) : SimpleStep :=
  let r := reactants.foldl initFold ([], [])
  let p := products.foldl initFold ([], [])
  ⟨r.2, p.2, r.1, p.1, 0, 0⟩

/-- The dict_addition helper of SimpleStep.__add__: merge dict_from with the
comprehension mapping each key of add_to to dict_from.get(key, 0) plus its
add_to value. Keys of dict_from keep their position, fresh keys of add_to
follow in order. -/
def dictAddition (dfrom dto : StoichMap) : StoichMap :=
  dfrom.map (fun kv =>
    match alLookup dto kv.1 with
    | some v => (kv.1, pyAdd kv.2 v)
    | none => kv) ++
  (dto.filter (fun kv => !alMem dfrom kv.1)).map (fun kv => (kv.1, pyAdd (.int 0) kv.2))

/-- SimpleStep.__add__: rebuild through the constructor from the merged
mass-action maps. The liquid/solid maps of both operands are dropped, as in
the source. -/
def stepAdd (a b : SimpleStep) : SimpleStep :=
  mkSimpleStep (dictAddition a.reactants b.reactants) (dictAddition a.products b.products)

/-- SimpleStep.__eq__: dict equality of the two mass-action maps only; rate
constants and the liquid/solid maps play no part. -/
def stepEqB (a b : SimpleStep) : Bool :=
  smEqB a.reactants b.reactants && smEqB a.products b.products

/-! ### The stoichiometry parser (SimpleStep.str_to_step) -/

/-- The Python exceptions that can escape the embedded code. -/
inductive PyErr where
  | valueError
  | indexError
  | zeroDivisionError
  | syntaxError
  | keyError
  deriving DecidableEq, Repr

instance {ε α : Type} [DecidableEq ε] [DecidableEq α] : DecidableEq (Except ε α) := fun x y =>
  match x, y with
  | .ok a, .ok b =>
    if h : a = b then isTrue (h ▸ rfl) else isFalse (fun hh => h (Except.ok.inj hh))
  | .error a, .error b =>
    if h : a = b then isTrue (h ▸ rfl) else isFalse (fun hh => h (Except.error.inj hh))
  | .ok _, .error _ => isFalse (fun hh => Except.noConfusion hh)
  | .error _, .ok _ => isFalse (fun hh => Except.noConfusion hh)

/-- The optional flag threaded through the str_to_step recursion:
Python None, True (reactant side) or False (product side). -/
inductive RoleFlag where
  | noneF
  | reacF
  | prodF
  deriving DecidableEq, Repr

/-- Build the single-species step of the term base case. The flag selects
the reactant map only when it is the Python literal True; both False and
None build a product. -/
def mkTermStep (flag : RoleFlag) (name : Str) (coef : PyNum) : SimpleStep :=
  match flag with
  | .reacF => mkSimpleStep [(name, coef)] []
  | _ => mkSimpleStep [] [(name, coef)]

/-- The term base case of str_to_step. The leading regex match takes either
digits-slash-digits or digits; with no match the cutoff is 1 after the
character 1 is prepended. When the (possibly prepended) string contains a
slash anywhere, the prefix before the cutoff is split on the slash and the
two parts divided as ints: a prefix without a slash has no second part
(IndexError), a zero denominator raises ZeroDivisionError. Otherwise the
prefix parses as an int coefficient. The species name is the suffix after
the cutoff. -/
def parseTerm (flag : RoleFlag) (s0 : Str) : Except PyErr SimpleStep :=
  let d1 := s0.takeWhile Char.isDigit
  let rest1 := s0.drop d1.length
  let d2 := (rest1.drop 1).takeWhile Char.isDigit
  let slashM : Bool := !d1.isEmpty && (rest1.head? == some '/') && !d2.isEmpty
  let s := if slashM || !d1.isEmpty then s0 else '1' :: s0
  let cutoff := if slashM then d1.length + 1 + d2.length
                else if !d1.isEmpty then d1.length else 1
  if s.contains '/' then
    match splitOnChar '/' (s.take cutoff) with
    | a :: b :: _ =>
      if natOfDigits b = 0 then .error .zeroDivisionError
      else .ok (mkTermStep flag (s.drop cutoff) (.float (pyDivInt (natOfDigits a) (natOfDigits b))))
    | _ => .error .indexError
  else
    .ok (mkTermStep flag (s.drop cutoff) (.int (natOfDigits (s.take cutoff))))

/-- Python sum of a nonempty list of steps: the integer start 0 is absorbed
by radd, then addition left to right. The split that produces the list never
yields an empty one; the empty case is an arbitrary total value. -/
def sumSteps (l : List SimpleStep) : SimpleStep :=
  match l with
  | [] => mkSimpleStep [] []
  | h :: t => t.foldl stepAdd h

/-- One side of an equation: with a plus present, parse each component as a
term with the inherited flag and sum; otherwise parse the side as one
term. -/
def parseSide (flag : RoleFlag) (s : Str) : Except PyErr SimpleStep :=
  if s.contains '+' then
    (splitOnChar '+' s).mapM (parseTerm flag) |>.map sumSteps
  else parseTerm flag s

/-- SimpleStep.str_to_step at the top level (flag None): with an arrow
present, strip whitespace, split on the arrow — tuple unpacking raises
ValueError unless the split has exactly two parts — parse the left side with
flag True and the right with flag False, and add the two steps. Without an
arrow the whole string is parsed as one (unstripped) side. -/
def str_to_step (s : Str) : Except PyErr SimpleStep :=
  if containsArrow s then
    match splitArrow (pyStrip s) with
    | [r, p] => do
      let sr ← parseSide .reacF r
      let sp ← parseSide .prodF p
      .ok (stepAdd sr sp)
    | _ => .error .valueError
  else parseSide .noneF s

/-- SimpleStep.__str__: coefficient-name terms joined by plus signs, the two
sides joined by the arrow. The liquid/solid maps are not printed. -/
def stepStr (st : SimpleStep) : Str :=
  joinSep [' ', '+', ' '] (st.reactants.map (fun kv => pyNumRepr kv.2 ++ kv.1)) ++
  [' ', '-', '>', ' '] ++
  joinSep [' ', '+', ' '] (st.products.map (fun kv => pyNumRepr kv.2 ++ kv.1))

/-! ### ReactionMechanism -/

/-- ReactionMechanism.str_to_mechanism: one step per newline-separated
line; the first failing line aborts the whole parse. -/
def str_to_mechanism (s : Str) : Except PyErr (List SimpleStep) :=
  (splitOnChar '\n' s).mapM str_to_step

/-- ReactionMechanism.__eq__: same step count, and the count of pairwise
equal corresponding steps equals the step count. -/
def mechEqB (a b : List SimpleStep) : Bool :=
  if b.length = a.length then (b.zip a).countP (fun p => stepEqB p.1 p.2) == a.length
  else false

/-! ### DifferentialEquationModel

The source builds rate expressions as Python lambda strings of the shapes
  -coef*kf*R + coef*kr*P    (a reactant contribution)
  coef*kf*R - kr*coef*P     (a product contribution)
where R and P are the star-joined mass-action products over the reactant and
product maps, and sum_differential_equations joins model strings with a plus
character. The embedding keeps each signed product term; joining is list
concatenation and the empty model string is the empty list. The value of a
term under a binding of the species is sign times coefficient times rate
constant times the mass-action product, exactly the value of the string
under Python evaluation (multiplication reordered by commutativity). -/

/-- One signed product term of a generated rate expression. -/
structure DETerm where
  sign : Bool
  coef : PyNum
  k : ℚ
  side : StoichMap
  deriving DecidableEq, Repr

/-- A DifferentialEquationModel as its list of signed terms. -/
abbrev DEModel := List DETerm

/-- The mass-action product of one side: concentration to the power of the
coefficient, multiplied over the side in order. The power operation of
Python (** with a float exponent) is abstracted as a parameter; every
theorem below holds for all of its values. -/
def massAction (pw : ℚ → ℚ → ℚ) (env : Str → ℚ) (side : StoichMap) : ℚ :=
  side.foldl (fun acc kv => acc * pw (env kv.1) kv.2.val) 1

/-- Value of one signed term under a binding. -/
def evalTerm (pw : ℚ → ℚ → ℚ) (env : Str → ℚ) (t : DETerm) : ℚ :=
  (if t.sign then 1 else -1) * t.coef.val * t.k * massAction pw env t.side

/-- Value of a model under a complete binding of the species. -/
def evalDE (pw : ℚ → ℚ → ℚ) (env : Str → ℚ) (de : DEModel) : ℚ :=
  (de.map (evalTerm pw env)).sum

/-- The two terms of the reactant contribution of a species with a given
coefficient: -coef*kf*R + coef*kr*P. -/
def reacTerms (st : SimpleStep) (coef : PyNum) : DEModel :=
  [⟨false, coef, st.kf, st.reactants⟩, ⟨true, coef, st.kr, st.products⟩]

/-- The two terms of the product contribution of a species with a given
coefficient: coef*kf*R - kr*coef*P. -/
def prodTerms (st : SimpleStep) (coef : PyNum) : DEModel :=
  [⟨true, coef, st.kf, st.reactants⟩, ⟨false, coef, st.kr, st.products⟩]

/-- The dictionary built by get_differential_equations: one entry per
reactant, then the product loop either concatenates onto an existing entry
(a species on both sides) or appends a fresh one. -/
def buildDEMap (st : SimpleStep) : List (Str × DEModel) :=
  let afterReac := st.reactants.foldl (fun m kv => alSet m kv.1 (reacTerms st kv.2)) []
  st.products.foldl (fun m kv =>
    match alLookup m kv.1 with
    | some old => alSet m kv.1 (old ++ prodTerms st kv.2)
    | none => alSet m kv.1 (prodTerms st kv.2)) afterReac

/-- SimpleStep.get_differential_equations. Besides the returned dictionary
the source also eval-compiles a raw lambda string for every entry; those
strings contain the star-joined products of both sides, and the join over an
empty side leaves a dangling star that raises SyntaxError at compile time.
Entries exist exactly when a mass-action side is nonempty, so the call
succeeds when both sides are empty (an empty dictionary) or both are
nonempty, and raises otherwise. -/
def get_differential_equations (st : SimpleStep) : Except PyErr (List (Str × DEModel)) :=
  if (st.reactants.isEmpty && st.products.isEmpty) ||
     (!st.reactants.isEmpty && !st.products.isEmpty) then
    .ok (buildDEMap st)
  else .error .syntaxError

/-- SimpleStep.get_differential_equation_of: start from the empty model,
concatenate the reactant contribution when the species is a reactant, then
the product contribution when it is a product. No raw lambda strings are
compiled here, so the call always returns. -/
def get_differential_equation_of (st : SimpleStep) (species : Str) : DEModel :=
  let ode1 : DEModel := []
  let ode2 : DEModel :=
    match alLookup st.reactants species with
    | some c => ode1 ++ reacTerms st c
    | none => ode1
  match alLookup st.products species with
  | some c => ode2 ++ prodTerms st c
  | none => ode2

/-! ### The event-driven piecewise integrator (ReactionVisualizer)

progress_reaction (fixed grid, odeint) and progress_reaction_robust
(adaptive, solve_ivp) share the event-application code verbatim; the
embedding models it once. The numerical integration itself is the external
scipy collaborator: the segment just integrated enters the event application
only through its last sampled row, which is kept abstract. -/

/-- The ReactionEvent enum, extended by the synthetic terminal entry
(time_end, None, ()) appended after sorting. -/
inductive ReactionEvent where
  | change_concentration
  | set_concentration
  | smooth_change_concentration
  | terminal
  deriving DecidableEq, Repr

/-- The current state: an insertion-ordered dict of concentrations. Its key
order fixes the column order of every integrated segment. -/
abbrev ConcState := List (Str × ℚ)

/-- Application of one event to the last sampled row of the segment just
integrated, producing the initial state of the next segment (lines 117-131,
repeated verbatim at lines 222-236). For the two concentration events every
key of the state is rewritten in order to the matching column of the last
row, the event target getting the payload value added; the smooth-change
branch is the statement pass and the terminal event matches no branch, so
both leave the state untouched. -/
def applyReactionEvent (ev : ReactionEvent) (info : Str × ℚ)
    (curState : ConcState) (lastRow : List ℚ) : ConcState :=
  match ev with
  | .change_concentration =>
    curState.zipWith (fun kv v => (kv.1, if kv.1 = info.1 then v + info.2 else v)) lastRow
  | .set_concentration =>
    curState.zipWith (fun kv v => (kv.1, if kv.1 = info.1 then v + info.2 else v)) lastRow
  | _ => curState

/-- The last sampled row rewritten as a state dict in the key order of the
current state: the pure carry-over with no event applied. -/
def lastAsState (curState : ConcState) (lastRow : List ℚ) : ConcState :=
  curState.zipWith (fun kv v => (kv.1, v)) lastRow

/-- numpy.linspace over exact rationals: n points from a to b inclusive.
With n = 1 the single point is a; with n = 0 the list is empty (the rational
division by zero in the spacing is never reached with a nonzero index). -/
def linspaceQ (a b : ℚ) (n : ℕ) : List ℚ :=
  (List.range n).map (fun (i : ℕ) => a + (b - a) * (i : ℚ) / ((n : ℚ) - 1))

/-- The event-time discretization of progress_reaction: round the event time
to the nearest multiple of the grid spacing time_end / number_steps, ties to
even as the Python round built-in. -/
def gridRound (timeEnd : ℚ) (numberSteps : ℕ) (t : ℚ) : ℚ :=
  let ti := timeEnd / numberSteps
  (roundNE (t / ti) : ℚ) * ti

/-- The sample count of one segment: the segment span over the whole horizon,
scaled by the total step count and rounded. -/
def segCount (timeEnd : ℚ) (numberSteps : ℕ) (prev tp : ℚ) : ℕ :=
  (roundNE ((tp - prev) / timeEnd * numberSteps)).toNat

/-- The per-segment sample-time grids of the event loop of progress_reaction:
each iteration integrates on linspace from the previous discretized time to
the raw event time with the rounded sample count, then advances the previous
time to the discretized event time. -/
def progressSegments (timeEnd : ℚ) (numberSteps : ℕ) : ℚ → List ℚ → List (List ℚ)
  | _, [] => []
  | prev, tp :: rest =>
    linspaceQ prev tp (segCount timeEnd numberSteps prev tp) ::
      progressSegments timeEnd numberSteps (gridRound timeEnd numberSteps tp) rest

/-- Insert a value into an ascending list, after every element at most it. -/
def insertAsc (x : ℚ) : List ℚ → List ℚ
  | [] => [x]
  | y :: t => if y ≤ x then y :: insertAsc x t else x :: y :: t

/-- Python sorted on event times: stable ascending order, here by insertion
sort. -/
def pySorted (l : List ℚ) : List ℚ := l.foldl (fun acc x => insertAsc x acc) []

/-- The concatenated sample times of all segments of an event-driven
progress_reaction run: events sorted by time, the synthetic terminal entry
at time_end appended, the loop started at previous time 0. -/
def progressTimes (timeEnd : ℚ) (numberSteps : ℕ) (events : List ℚ) : List ℚ :=
  (progressSegments timeEnd numberSteps 0 (pySorted events ++ [timeEnd])).flatten

/-- The Time column of the returned DataFrame: one fresh global linspace over
the whole horizon, independent of the segment grids. -/
def dfTimes (timeEnd : ℚ) (numberSteps : ℕ) : List ℚ :=
  linspaceQ 0 timeEnd numberSteps

/-- The equation-dictionary assembly of get_states (lines 62-67): look the
reaction equations up at every key of initial_state — a key without an
equation raises KeyError — then write every override entry in by plain dict
assignment, with no membership check against initial_state. -/
def buildOdeDict (odeDict : List (Str × DEModel)) (initKeys : List Str)
    (override : List (Str × DEModel)) : Except PyErr (List (Str × DEModel)) := do
  let base ← initKeys.mapM (fun k =>
    match alLookup odeDict k with
    | some de => Except.ok (k, de)
    | none => Except.error PyErr.keyError)
  .ok (override.foldl (fun m kv => alSet m kv.1 kv.2) base)

/-- The expected dictionary entry of a species, by its roles: both
contributions concatenated for a species on both sides, one contribution for
a single role, nothing otherwise. The product map is a parameter so that the
product loop can be characterized entry by entry. -/
def deExpected (st : SimpleStep) (p : StoichMap) (sp : Str) : Option DEModel :=
  match alLookup st.reactants sp, alLookup p sp with
  | some cr, some cp => some (reacTerms st cr ++ prodTerms st cp)
  | some cr, none => some (reacTerms st cr)
  | none, some cp => some (prodTerms st cp)
  | none, none => none

/-- Witness fixture: the step A to B with zero rate constants. -/
def stepAB : SimpleStep := mkSimpleStep [(['A'], .int 1)] [(['B'], .int 1)]

/-- Witness fixture: the step A to A + 2B, with A on both sides. -/
def stepAAB : SimpleStep := mkSimpleStep [(['A'], .int 1)] [(['A'], .int 1), (['B'], .int 2)]

/-- Witness fixture: the dictionary entry of A in stepAB. -/
def deA_AB : DEModel :=
  [⟨false, .int 1, 0, [(['A'], .int 1)]⟩, ⟨true, .int 1, 0, [(['B'], .int 1)]⟩]

/-- Witness fixture: the dictionary entry of A in stepAAB, the reactant
contribution followed by the product contribution. -/
def deA_AAB : DEModel :=
  [⟨false, .int 1, 0, [(['A'], .int 1)]⟩,
   ⟨true, .int 1, 0, [(['A'], .int 1), (['B'], .int 2)]⟩,
   ⟨true, .int 1, 0, [(['A'], .int 1)]⟩,
   ⟨false, .int 1, 0, [(['A'], .int 1), (['B'], .int 2)]⟩]

/-- A species name that survives the print-reparse round trip: free of
whitespace, plus signs, slashes and arrow occurrences, and not starting with
a digit. Every name produced by a successful slash-free parse through the
arrow branch has this shape. -/
def printableName (k : Str) : Prop :=
  containsArrow k = false ∧ ¬ '+' ∈ k ∧ ¬ ' ' ∈ k ∧ ¬ '\t' ∈ k ∧ ¬ '/' ∈ k ∧
  ∀ c, k.head? = some c → c.isDigit = false

/-- A mass-action map that survives the round trip: duplicate-free keys, all
printable and phase-marker-free, all coefficients nonnegative ints. -/
def printableMap (m : StoichMap) : Prop :=
  (m.map Prod.fst).Nodup ∧
  ∀ kv ∈ m, printableName kv.1 ∧ lsTagged kv.1 = false ∧ ∃ n : ℕ, kv.2 = PyNum.int (n : ℤ)

/-! ### Association-list lemmas -/

theorem alLookup_alSet {β : Type} (m : List (Str × β)) (k k' : Str) (v : β) :
    alLookup (alSet m k v) k' = if k = k' then some v else alLookup m k' := by
  induction m with
  | nil =>
    by_cases h : k = k' <;> simp [alSet, alLookup, h]
  | cons hd t ih =>
    obtain ⟨k0, v0⟩ := hd
    by_cases h1 : k0 = k
    · subst h1
      by_cases h2 : k0 = k' <;> simp [alSet, alLookup, h2]
    · by_cases h2 : k0 = k'
      · subst h2
        have hkk : ¬ k = k0 := fun hh => h1 hh.symm
        simp [alSet, alLookup, h1, hkk]
      · simp [alSet, alLookup, h1, h2, ih]

theorem alLookup_eq_none {β : Type} (m : List (Str × β)) (k : Str) :
    alLookup m k = none ↔ ∀ kv ∈ m, kv.1 ≠ k := by
  induction m with
  | nil => simp [alLookup]
  | cons hd t ih =>
    obtain ⟨k0, v0⟩ := hd
    by_cases h : k0 = k
    · subst h
      simp only [alLookup, if_pos rfl]
      refine ⟨fun hh => Option.noConfusion hh, fun hh => absurd rfl (hh (k0, v0) (by simp))⟩
    · simp only [alLookup, if_neg h]
      rw [ih]
      constructor
      · intro hall kv hkv
        rcases List.mem_cons.mp hkv with h1 | h1
        · rw [h1]; exact h
        · exact hall kv h1
      · intro hall kv hkv
        exact hall kv (List.mem_cons_of_mem _ hkv)

theorem alLookup_mem {β : Type} (m : List (Str × β)) (k : Str) (v : β)
    (h : alLookup m k = some v) : (k, v) ∈ m := by
  induction m with
  | nil => simp [alLookup] at h
  | cons hd t ih =>
    obtain ⟨k0, v0⟩ := hd
    by_cases h1 : k0 = k
    · subst h1
      simp only [alLookup, if_pos rfl] at h
      have := Option.some.inj h
      subst this
      exact List.mem_cons_self _ _
    · simp only [alLookup, if_neg h1] at h
      exact List.mem_cons_of_mem _ (ih h)

theorem mem_alSet {β : Type} (m : List (Str × β)) (k : Str) (v : β) (kv : Str × β)
    (h : kv ∈ alSet m k v) : kv = (k, v) ∨ kv ∈ m := by
  induction m with
  | nil => simpa [alSet] using h
  | cons hd t ih =>
    obtain ⟨k0, v0⟩ := hd
    by_cases h1 : k0 = k
    · subst h1
      simp only [alSet, if_pos rfl] at h
      rcases List.mem_cons.mp h with h | h
      · exact Or.inl h
      · exact Or.inr (List.mem_cons_of_mem _ h)
    · simp only [alSet, if_neg h1] at h
      rcases List.mem_cons.mp h with h | h
      · exact Or.inr (h ▸ List.mem_cons_self _ _)
      · rcases ih h with h | h
        · exact Or.inl h
        · exact Or.inr (List.mem_cons_of_mem _ h)

theorem smEqB_symm (x y : StoichMap) : smEqB x y = smEqB y x := Bool.and_comm _ _

/-! ### Shared event-application lemmas -/

theorem zipWith_event (sp : Str) (v : ℚ) (st : ConcState) (row : List ℚ) :
    st.zipWith (fun kv w => (kv.1, if kv.1 = sp then w + v else w)) row =
      (st.zipWith (fun kv w => (kv.1, w)) row).map
        (fun kv => if kv.1 = sp then (kv.1, kv.2 + v) else kv) := by
  induction st generalizing row with
  | nil => rfl
  | cons hd t ih =>
    cases row with
    | nil => rfl
    | cons x xs =>
      simp only [List.zipWith_cons_cons, List.map_cons, ih]
      by_cases h : hd.1 = sp <;> simp [h]

theorem applyChange_eq_mapLast (sp : Str) (v : ℚ) (st : ConcState) (row : List ℚ) :
    applyReactionEvent .change_concentration (sp, v) st row =
      (lastAsState st row).map (fun kv => if kv.1 = sp then (kv.1, kv.2 + v) else kv) :=
  zipWith_event sp v st row

theorem zipWith_event_absent (sp : Str) (v : ℚ) (st : ConcState) (row : List ℚ) :
    (∀ kv ∈ st, kv.1 ≠ sp) →
    st.zipWith (fun kv w => (kv.1, if kv.1 = sp then w + v else w)) row =
      st.zipWith (fun kv w => (kv.1, w)) row := by
  induction st generalizing row with
  | nil => intro _; rfl
  | cons hd t ih =>
    intro hk
    cases row with
    | nil => rfl
    | cons x xs =>
      have h1 : hd.1 ≠ sp := hk hd (List.mem_cons_self _ _)
      simp only [List.zipWith_cons_cons, if_neg h1]
      exact congrArg _ (ih xs (fun kv hkv => hk kv (List.mem_cons_of_mem _ hkv)))

theorem applyChange_absent (sp : Str) (v : ℚ) (st : ConcState) (row : List ℚ)
    (h : alLookup st sp = none) :
    applyReactionEvent .change_concentration (sp, v) st row = lastAsState st row :=
  zipWith_event_absent sp v st row ((alLookup_eq_none st sp).mp h)

/-! ### Claims C2, C3, C9 (event application) -/

/-- C2: for every last sampled state of a segment and every payload, a
SET_CONCENTRATION event produces exactly the same next-segment initial state
as a CHANGE_CONCENTRATION event with the same payload; the target species
receives its last sampled value plus the payload value (addition, not
replacement) and every other species keeps its last sampled value. -/
theorem C2_set_equals_change (sp : Str) (v : ℚ) (st : ConcState) (row : List ℚ) :
    applyReactionEvent .set_concentration (sp, v) st row =
      applyReactionEvent .change_concentration (sp, v) st row ∧
    applyReactionEvent .set_concentration (sp, v) st row =
      (lastAsState st row).map (fun kv => if kv.1 = sp then (kv.1, kv.2 + v) else kv) := by
  exact ⟨rfl, applyChange_eq_mapLast sp v st row⟩

/-- C3 counterexample: the claim asserts that for every event kind the next
segment starts from the last sample of the segment just integrated, every
non-target species carrying over its last sampled value. For the
SMOOTH_CHANGE_CONCENTRATION kind the event loop does nothing at all, so with
current state A = 1, B = 3 and last sampled row 2, 4, the event targeting A
leaves the next initial state at A = 1, B = 3: the non-target species B does
not carry over its last sampled value 4. -/
theorem C3_counterexample :
    applyReactionEvent .smooth_change_concentration (['A'], 5)
        [(['A'], 1), (['B'], 3)] [2, 4] = [(['A'], 1), (['B'], 3)] ∧
    ((3 : ℚ) = 4 → False) := by
  exact ⟨rfl, by decide⟩

/-- C3 amended: the carry-over of last sampled values holds for the
CHANGE_CONCENTRATION and SET_CONCENTRATION kinds (the target additionally
receives the payload); for SMOOTH_CHANGE_CONCENTRATION and the synthetic
terminal no-op the loop leaves the state untouched, so the next segment
restarts from the initial state of the segment just integrated, not from its
last sample. -/
theorem C3_event_frame (sp : Str) (v : ℚ) (st : ConcState) (row : List ℚ) :
    applyReactionEvent .change_concentration (sp, v) st row =
      (lastAsState st row).map (fun kv => if kv.1 = sp then (kv.1, kv.2 + v) else kv) ∧
    applyReactionEvent .set_concentration (sp, v) st row =
      (lastAsState st row).map (fun kv => if kv.1 = sp then (kv.1, kv.2 + v) else kv) ∧
    applyReactionEvent .smooth_change_concentration (sp, v) st row = st ∧
    applyReactionEvent .terminal (sp, v) st row = st := by
  exact ⟨applyChange_eq_mapLast sp v st row, applyChange_eq_mapLast sp v st row, rfl, rfl⟩

/-- C9 counterexample: the claim asserts a KeyMissing failure when an event
names a species absent from the initial state, and likewise for an override.
The event loop compares the target name against each state key and raises
nothing: a CHANGE_CONCENTRATION event on the absent species X completes and
is silently ignored, every species carrying over its last sampled value. The
override assembly inserts the absent key X without any membership check, so
it returns a dictionary with the extra key instead of failing. -/
theorem C9_counterexample :
    applyReactionEvent .change_concentration (['X'], 3)
        [(['A'], 1), (['B'], 2)] [5, 7] = [(['A'], 5), (['B'], 7)] ∧
    buildOdeDict [(['A'], []), (['B'], [])] [['A'], ['B']] [(['X'], [])] =
      .ok [(['A'], []), (['B'], []), (['X'], [])] := by
  exact ⟨rfl, by decide⟩

/-- C9 amended: an event whose target species is absent from the current
state is silently ignored — the call completes and the next state is the
pure carry-over of the last sampled row; an override for a species absent
from the initial-state keys raises no KeyMissing error either: whenever
every initial-state key has an equation, the assembly succeeds and the
returned dictionary contains the absent override key (the mismatch is left
for the external solver). A KeyError is only raised for an initial-state key
with no equation. -/
theorem C9_absent_species (sp : Str) (v : ℚ) (st : ConcState) (row : List ℚ)
    (h : alLookup st sp = none) :
    applyReactionEvent .change_concentration (sp, v) st row = lastAsState st row ∧
    applyReactionEvent .set_concentration (sp, v) st row = lastAsState st row ∧
    ∀ (odeDict : List (Str × DEModel)) (initKeys : List Str) (ov : Str × DEModel),
      (∀ k ∈ initKeys, (alLookup odeDict k).isSome = true) →
      ∃ m, buildOdeDict odeDict initKeys [ov] = .ok m ∧ alLookup m ov.1 = some ov.2 := by
  refine ⟨applyChange_absent sp v st row h, applyChange_absent sp v st row h, ?_⟩
  intro odeDict initKeys ov hall
  have hbase : ∃ base, initKeys.mapM (fun k =>
      match alLookup odeDict k with
      | some de => Except.ok (k, de)
      | none => Except.error PyErr.keyError) = Except.ok base := by
    induction initKeys with
    | nil => exact ⟨[], rfl⟩
    | cons k t ih =>
      rcases ih (fun x hx => hall x (List.mem_cons_of_mem _ hx)) with ⟨base, hb⟩
      have hk := hall k (by simp)
      rcases Option.isSome_iff_exists.mp hk with ⟨de, hde⟩
      refine ⟨(k, de) :: base, ?_⟩
      rw [List.mapM_cons, hde, hb]
      rfl
  rcases hbase with ⟨base, hb⟩
  refine ⟨alSet base ov.1 ov.2, ?_, ?_⟩
  · unfold buildOdeDict
    rw [hb]
    rfl
  · rw [alLookup_alSet]
    simp

/-- C9 witness. -/
theorem C9_witness :
    alLookup [(['A'], (1 : ℚ)), (['B'], 2)] ['X'] = none ∧
    (applyReactionEvent .change_concentration (['X'], 3) [(['A'], 1), (['B'], 2)] [5, 7] =
        lastAsState [(['A'], 1), (['B'], 2)] [5, 7] ∧
      applyReactionEvent .set_concentration (['X'], 3) [(['A'], 1), (['B'], 2)] [5, 7] =
        lastAsState [(['A'], 1), (['B'], 2)] [5, 7] ∧
      ∀ (odeDict : List (Str × DEModel)) (initKeys : List Str) (ov : Str × DEModel),
        (∀ k ∈ initKeys, (alLookup odeDict k).isSome = true) →
        ∃ m, buildOdeDict odeDict initKeys [ov] = .ok m ∧ alLookup m ov.1 = some ov.2) := by
  exact ⟨by decide, C9_absent_species ['X'] 3 [(['A'], 1), (['B'], 2)] [5, 7] (by decide)⟩

/-! ### Claims C7, C8 (parser values and failures) -/

/-- C7 counterexample: the claim asserts that the parsed coefficient of D in
"1/2A+3B->C+5/6D" is exactly the rational 5/6. The source computes slash
coefficients by Python float division, and the binary64 value of 5 divided
by 6 is 7505999378950827 / 2^53, which is not 5/6. -/
theorem C7_counterexample :
    (str_to_step "1/2A+3B->C+5/6D".toList).map (fun st => alLookup st.products ['D']) =
      .ok (some (.float (7505999378950827 / 9007199254740992))) ∧
    ((7505999378950827 / 9007199254740992 : ℚ) = 5 / 6 → False) := by
  exact ⟨by decide, by decide⟩

/-- C7 amended: parsing "1/2A+3B->C+5/6D" yields reactant coefficients
A = 1/2 (exact, since 1/2 is a binary64 value) and B = 3, and product
coefficients C = 1 and D = 7505999378950827 / 2^53, the binary64 rounding of
5/6: slash coefficients are Python floats, exact only when the fraction is
representable in binary floating point, and fractional values such as 5/6
and 3/800 are not stored as exact rationals. -/
theorem C7_fractional_coefficients :
    (str_to_step "1/2A+3B->C+5/6D".toList).map (fun st => (st.reactants, st.products)) =
      .ok ([(['A'], .float (1 / 2)), (['B'], .int 3)],
           [(['C'], .int 1), (['D'], .float (7505999378950827 / 9007199254740992))]) ∧
    ((pyDivInt 5 6 = 5 / 6) → False) ∧ ((pyDivInt 3 800 = 3 / 800) → False) := by
  refine ⟨by decide, by decide, by decide⟩

/-- C8 counterexample: the claim asserts that an equation text missing the
arrow fails with a ParseError and returns no partial step. Parsing "A+B"
raises nothing: it returns a step whose products are A and B (the flag None
of the top-level call routes every term to the product side). -/
theorem C8_counterexample :
    str_to_step "A+B".toList =
      .ok ⟨[], [(['A'], .int 1), (['B'], .int 1)], [], [], 0, 0⟩ := by
  decide

/-- C8 amended: of the three malformation classes only the slash one fails.
A text missing the arrow parses without error as a products-only step; an
empty side parses without error as the single species with empty name and
coefficient 1; a slash whose two operands are not both integers raises
IndexError (no slash in the matched coefficient prefix) or
ZeroDivisionError (zero denominator) — exceptions, not a structured
ParseError type, though indeed no partial step escapes. A failing step makes
str_to_mechanism fail the same way, with no partial mechanism. -/
theorem C8_malformed_equations :
    str_to_step "A+B".toList =
      .ok ⟨[], [(['A'], .int 1), (['B'], .int 1)], [], [], 0, 0⟩ ∧
    str_to_step "->B".toList =
      .ok ⟨[([], .int 1)], [(['B'], .int 1)], [], [], 0, 0⟩ ∧
    str_to_step "A/B->C".toList = .error .indexError ∧
    str_to_step "1/0A->B".toList = .error .zeroDivisionError ∧
    str_to_mechanism ("A->B\nC/D->E".toList) = .error .indexError := by
  refine ⟨by decide, by decide, by decide, by decide, by decide⟩

/-! ### Claim C10 (mechanism equality) -/

/-- C10: two mechanisms are equal exactly when they have the same number of
steps and every corresponding pair of steps is equal, step equality being
dict equality of the reactant and product stoichiometric maps alone; the
rate constants and the liquid/solid maps segregated at construction play no
part, as replacing them everywhere leaves mechanism equality unchanged. -/
theorem C10_mechanism_equality (a b : List SimpleStep) :
    (mechEqB a b = true ↔
      a.length = b.length ∧
      List.Forall₂ (fun s t => smEqB s.reactants t.reactants = true ∧
        smEqB s.products t.products = true) a b) ∧
    mechEqB (a.map fun st => ⟨st.reactants, st.products, [], [], 0, 0⟩)
        (b.map fun st => ⟨st.reactants, st.products, [], [], 0, 0⟩) = mechEqB a b := by
  constructor
  · unfold mechEqB
    by_cases hl : b.length = a.length
    · have hzl : (b.zip a).length = a.length := by
        rw [List.length_zip, hl, Nat.min_self]
      rw [if_pos hl]
      simp only [beq_iff_eq]
      nth_rewrite 1 [← hzl]
      rw [List.countP_eq_length]
      constructor
      · intro hall
        refine ⟨hl.symm, ?_⟩
        rw [List.forall₂_iff_zip]
        refine ⟨hl.symm, ?_⟩
        intro s t hmem
        have hmem' : (t, s) ∈ b.zip a := by
          rw [← List.zip_swap]
          exact List.mem_map.mpr ⟨(s, t), hmem, rfl⟩
        have hst := hall _ hmem'
        have h1 := (Bool.and_eq_true _ _).mp hst
        rcases h1 with ⟨h1, h2⟩
        exact ⟨(smEqB_symm _ _).trans h1, (smEqB_symm _ _).trans h2⟩
      · rintro ⟨-, hfa⟩
        rw [List.forall₂_iff_zip] at hfa
        rcases hfa with ⟨-, hall⟩
        intro p hp
        have hp' : (p.2, p.1) ∈ a.zip b := by
          rw [← List.zip_swap]
          exact List.mem_map.mpr ⟨p, hp, rfl⟩
        rcases hall hp' with ⟨h1, h2⟩
        show (smEqB p.1.reactants p.2.reactants && smEqB p.1.products p.2.products) = true
        rw [smEqB_symm p.1.reactants, smEqB_symm p.1.products, h1, h2]
        rfl
    · rw [if_neg hl]
      exact ⟨fun hh => (Bool.false_ne_true hh).elim, fun hh => (hl hh.1.symm).elim⟩
  · unfold mechEqB
    rw [List.length_map, List.length_map]
    by_cases hl : b.length = a.length
    · rw [if_pos hl, if_pos hl, List.zip_map, List.countP_map]
      have hfn : ((fun (p : SimpleStep × SimpleStep) => stepEqB p.1 p.2) ∘
          Prod.map (fun st => (⟨st.reactants, st.products, [], [], 0, 0⟩ : SimpleStep))
            (fun st => (⟨st.reactants, st.products, [], [], 0, 0⟩ : SimpleStep))) =
          (fun (p : SimpleStep × SimpleStep) => stepEqB p.1 p.2) := by
        funext p
        rfl
      rw [hfn]
    · rw [if_neg hl, if_neg hl]

/-! ### The differential-equation dictionary, entry by entry -/

theorem alSet_of_not_mem {β : Type} (m : List (Str × β)) (k : Str) (v : β)
    (h : alMem m k = false) : alSet m k v = m ++ [(k, v)] := by
  induction m with
  | nil => rfl
  | cons hd t ih =>
    obtain ⟨k0, v0⟩ := hd
    by_cases h1 : k0 = k
    · subst h1
      unfold alMem alLookup at h
      rw [if_pos rfl] at h
      cases h
    · unfold alMem alLookup at h
      rw [if_neg h1] at h
      simp only [alSet, if_neg h1, List.cons_append]
      rw [ih h]

theorem alLookup_append {β : Type} (a b : List (Str × β)) (k : Str) :
    alLookup (a ++ b) k =
      match alLookup a k with
      | some v => some v
      | none => alLookup b k := by
  induction a with
  | nil => rfl
  | cons hd t ih =>
    obtain ⟨k0, v0⟩ := hd
    by_cases h1 : k0 = k
    · subst h1
      simp [alLookup]
    · simp only [List.cons_append, alLookup, if_neg h1]
      exact ih

theorem foldl_alSet_fresh {β : Type} (f : Str × PyNum → β) :
    ∀ (l : StoichMap) (acc : List (Str × β)),
      (∀ kv ∈ l, alMem acc kv.1 = false) → (l.map Prod.fst).Nodup →
      l.foldl (fun m kv => alSet m kv.1 (f kv)) acc =
        acc ++ l.map (fun kv => (kv.1, f kv)) := by
  intro l
  induction l with
  | nil => intro acc _ _; simp
  | cons kv t ih =>
    intro acc hfresh hnd
    simp only [List.foldl_cons]
    rw [alSet_of_not_mem _ _ _ (hfresh kv (List.mem_cons_self _ _))]
    have hfresh' : ∀ kv' ∈ t, alMem (acc ++ [(kv.1, f kv)]) kv'.1 = false := by
      intro kv' hkv'
      have h1 : alMem acc kv'.1 = false := hfresh kv' (List.mem_cons_of_mem _ hkv')
      have h2 : ¬ kv.1 = kv'.1 := by
        intro he
        exact (List.nodup_cons.mp hnd).1 (he ▸ List.mem_map_of_mem Prod.fst hkv')
      unfold alMem at h1 ⊢
      rw [alLookup_append]
      rcases ho : alLookup acc kv'.1 with - | v
      · simp only [ho]
        simp [alLookup, h2]
      · rw [ho] at h1
        cases h1
    rw [ih (acc ++ [(kv.1, f kv)]) hfresh' (List.nodup_cons.mp hnd).2]
    simp

theorem alLookup_mapVal {β : Type} (g : Str × PyNum → β) (l : StoichMap) (k : Str) :
    alLookup (l.map (fun kv => (kv.1, g kv))) k =
      Option.map (fun v => g (k, v)) (alLookup l k) := by
  induction l with
  | nil => rfl
  | cons hd t ih =>
    obtain ⟨k0, v0⟩ := hd
    by_cases h1 : k0 = k
    · subst h1
      simp [alLookup]
    · simp only [List.map_cons, alLookup, if_neg h1]
      exact ih

theorem fold2_lookup (st : SimpleStep) :
    ∀ (todo pdone : StoichMap) (m : List (Str × DEModel)),
      (pdone.map Prod.fst ++ todo.map Prod.fst).Nodup →
      (∀ sp, alLookup m sp = deExpected st pdone sp) →
      ∀ sp,
        alLookup (todo.foldl (fun m kv =>
          match alLookup m kv.1 with
          | some old => alSet m kv.1 (old ++ prodTerms st kv.2)
          | none => alSet m kv.1 (prodTerms st kv.2)) m) sp =
        deExpected st (pdone ++ todo) sp := by
  intro todo
  induction todo with
  | nil =>
    intro pdone m hnd hinv sp
    simpa using hinv sp
  | cons kv t ih =>
    intro pdone m hnd hinv sp
    obtain ⟨k0, c0⟩ := kv
    have hdisj := (List.nodup_append.mp hnd).2.2
    have hk0 : alLookup pdone k0 = none := by
      rw [alLookup_eq_none]
      intro kv' hkv' he
      exact hdisj (List.mem_map_of_mem Prod.fst hkv') (he ▸ List.mem_cons_self _ _)
    have happend : ∀ sp', ¬ k0 = sp' →
        alLookup (pdone ++ [(k0, c0)]) sp' = alLookup pdone sp' := by
      intro sp' hne
      rw [alLookup_append]
      rcases ho : alLookup pdone sp' with - | v
      · simp [alLookup, hne]
      · rfl
    have happend0 : alLookup (pdone ++ [(k0, c0)]) k0 = some c0 := by
      rw [alLookup_append, hk0]
      simp [alLookup]
    have hinv' : ∀ m', (∀ sp', alLookup m' sp' = deExpected st (pdone ++ [(k0, c0)]) sp') →
        alLookup (t.foldl (fun m kv =>
          match alLookup m kv.1 with
          | some old => alSet m kv.1 (old ++ prodTerms st kv.2)
          | none => alSet m kv.1 (prodTerms st kv.2)) m') sp =
        deExpected st (pdone ++ (k0, c0) :: t) sp := by
      intro m' hm'
      have hnd' : ((pdone ++ [(k0, c0)]).map Prod.fst ++ t.map Prod.fst).Nodup := by
        rw [List.map_append]
        rw [List.append_assoc]
        simpa using hnd
      have := ih (pdone ++ [(k0, c0)]) m' hnd' hm' sp
      rw [List.append_assoc] at this
      simpa using this
    simp only [List.foldl_cons]
    have hm0 := hinv k0
    unfold deExpected at hm0
    rcases hcr : alLookup st.reactants k0 with - | cr
    · simp only [hcr, hk0] at hm0
      simp only [hm0]
      apply hinv'
      intro sp'
      rw [alLookup_alSet]
      by_cases he : k0 = sp'
      · subst he
        simp [deExpected, hcr, happend0]
      · rw [if_neg he, hinv sp']
        unfold deExpected
        rw [happend sp' he]
    · simp only [hcr, hk0] at hm0
      simp only [hm0]
      apply hinv'
      intro sp'
      rw [alLookup_alSet]
      by_cases he : k0 = sp'
      · subst he
        simp [deExpected, hcr, happend0]
      · rw [if_neg he, hinv sp']
        unfold deExpected
        rw [happend sp' he]

theorem buildDEMap_lookup (st : SimpleStep)
    (hr : (st.reactants.map Prod.fst).Nodup) (hp : (st.products.map Prod.fst).Nodup)
    (sp : Str) :
    alLookup (buildDEMap st) sp = deExpected st st.products sp := by
  unfold buildDEMap
  have h1 : st.reactants.foldl (fun m kv => alSet m kv.1 (reacTerms st kv.2)) [] =
      st.reactants.map (fun kv => (kv.1, reacTerms st kv.2)) := by
    have := foldl_alSet_fresh (fun kv => reacTerms st kv.2) st.reactants []
      (fun kv _ => rfl) hr
    simpa using this
  rw [h1]
  have h2 := fold2_lookup st st.products []
    (st.reactants.map (fun kv => (kv.1, reacTerms st kv.2))) (by simpa using hp)
    (by
      intro sp'
      rw [alLookup_mapVal]
      unfold deExpected
      rcases h : alLookup st.reactants sp' with - | cr <;> simp [h, alLookup])
    sp
  simpa using h2

theorem diffEqOf_expected (st : SimpleStep) (sp : Str) (de : DEModel)
    (h : deExpected st st.products sp = some de) :
    get_differential_equation_of st sp = de := by
  unfold deExpected at h
  unfold get_differential_equation_of
  rcases hcr : alLookup st.reactants sp with - | cr <;>
    rcases hcp : alLookup st.products sp with - | cp <;>
    rw [hcr, hcp] at h
  · exact Option.noConfusion h
  · have := Option.some.inj h
    subst this
    simp
  · have := Option.some.inj h
    subst this
    simp
  · have := Option.some.inj h
    subst this
    simp

/-! ### Claims C1 and C5 -/

/-- C1: for every step with dict-shaped (duplicate-free) stoichiometric maps
and every species with an entry in the dictionary returned by
get_differential_equations, the model returned by
get_differential_equation_of for that species evaluates to the same value as
the dictionary entry under every binding of the species concentrations and
every power operation. The two are in fact the same term list. -/
theorem C1_single_species_matches_map (st : SimpleStep)
    (hr : (st.reactants.map Prod.fst).Nodup) (hp : (st.products.map Prod.fst).Nodup)
    (m : List (Str × DEModel)) (hm : get_differential_equations st = .ok m)
    (sp : Str) (de : DEModel) (hde : alLookup m sp = some de)
    (pw : ℚ → ℚ → ℚ) (env : Str → ℚ) :
    evalDE pw env (get_differential_equation_of st sp) = evalDE pw env de := by
  have hm' : m = buildDEMap st := by
    unfold get_differential_equations at hm
    split at hm
    · exact (Except.ok.inj hm).symm
    · exact Except.noConfusion hm
  subst hm'
  rw [buildDEMap_lookup st hr hp sp] at hde
  rw [diffEqOf_expected st sp de hde]

/-- C1 witness: the step A to A + 2B, species A on both sides. -/
theorem C1_witness :
    (stepAAB.reactants.map Prod.fst).Nodup ∧ (stepAAB.products.map Prod.fst).Nodup ∧
    get_differential_equations stepAAB = .ok (buildDEMap stepAAB) ∧
    alLookup (buildDEMap stepAAB) ['A'] = some deA_AAB ∧
    evalDE (fun a b => a * b) (fun _ => 2) (get_differential_equation_of stepAAB ['A']) =
      evalDE (fun a b => a * b) (fun _ => 2) deA_AAB := by
  refine ⟨by decide, by decide, by decide, by decide, ?_⟩
  exact C1_single_species_matches_map stepAAB (by decide) (by decide) (buildDEMap stepAAB)
    (by decide) ['A'] deA_AAB (by decide) (fun a b => a * b) (fun _ => 2)

theorem buildDEMap_terms (st : SimpleStep) :
    ∀ kv ∈ buildDEMap st, ∀ t ∈ kv.2, t.k = st.kf ∨ t.k = st.kr := by
  have hreac : ∀ (c : PyNum), ∀ t ∈ reacTerms st c, t.k = st.kf ∨ t.k = st.kr := by
    intro c t ht
    simp only [reacTerms, List.mem_cons, List.mem_singleton] at ht
    rcases ht with rfl | rfl | h
    · exact Or.inl rfl
    · exact Or.inr rfl
    · cases h
  have hprod : ∀ (c : PyNum), ∀ t ∈ prodTerms st c, t.k = st.kf ∨ t.k = st.kr := by
    intro c t ht
    simp only [prodTerms, List.mem_cons, List.mem_singleton] at ht
    rcases ht with rfl | rfl | h
    · exact Or.inl rfl
    · exact Or.inr rfl
    · cases h
  have stage1 : ∀ (l : StoichMap) (acc : List (Str × DEModel)),
      (∀ kv ∈ acc, ∀ t ∈ kv.2, t.k = st.kf ∨ t.k = st.kr) →
      ∀ kv ∈ l.foldl (fun m kv => alSet m kv.1 (reacTerms st kv.2)) acc,
        ∀ t ∈ kv.2, t.k = st.kf ∨ t.k = st.kr := by
    intro l
    induction l with
    | nil => intro acc hacc; exact hacc
    | cons kv0 l ih =>
      intro acc hacc
      simp only [List.foldl_cons]
      apply ih
      intro kv' hkv' t ht
      rcases mem_alSet _ _ _ _ hkv' with h | h
      · rw [h] at ht
        exact hreac kv0.2 t ht
      · exact hacc kv' h t ht
  have stage2 : ∀ (l : StoichMap) (acc : List (Str × DEModel)),
      (∀ kv ∈ acc, ∀ t ∈ kv.2, t.k = st.kf ∨ t.k = st.kr) →
      ∀ kv ∈ l.foldl (fun m kv =>
          match alLookup m kv.1 with
          | some old => alSet m kv.1 (old ++ prodTerms st kv.2)
          | none => alSet m kv.1 (prodTerms st kv.2)) acc,
        ∀ t ∈ kv.2, t.k = st.kf ∨ t.k = st.kr := by
    intro l
    induction l with
    | nil => intro acc hacc; exact hacc
    | cons kv0 l ih =>
      intro acc hacc
      simp only [List.foldl_cons]
      rcases hlk : alLookup acc kv0.1 with - | old
      · apply ih
        intro kv' hkv' t ht
        rcases mem_alSet _ _ _ _ hkv' with h | h
        · rw [h] at ht
          exact hprod kv0.2 t ht
        · exact hacc kv' h t ht
      · apply ih
        intro kv' hkv' t ht
        rcases mem_alSet _ _ _ _ hkv' with h | h
        · rw [h] at ht
          rcases List.mem_append.mp ht with h2 | h2
          · exact hacc (kv0.1, old) (alLookup_mem _ _ _ hlk) t h2
          · exact hprod kv0.2 t h2
        · exact hacc kv' h t ht
  intro kv hkv
  unfold buildDEMap at hkv
  exact stage2 st.products _ (stage1 st.reactants [] (by intro kv h; cases h)) kv hkv

/-- C5: for every step whose rate constants are both zero, every entry of the
dictionary returned by get_differential_equations evaluates to zero under
every binding of the species concentrations and every power operation. -/
theorem C5_zero_rates (st : SimpleStep) (hf : st.kf = 0) (hr : st.kr = 0)
    (m : List (Str × DEModel)) (hm : get_differential_equations st = .ok m)
    (sp : Str) (de : DEModel) (hde : (sp, de) ∈ m)
    (pw : ℚ → ℚ → ℚ) (env : Str → ℚ) :
    evalDE pw env de = 0 := by
  have hm' : m = buildDEMap st := by
    unfold get_differential_equations at hm
    split at hm
    · exact (Except.ok.inj hm).symm
    · exact Except.noConfusion hm
  subst hm'
  have hterms := buildDEMap_terms st (sp, de) hde
  unfold evalDE
  apply List.sum_eq_zero
  intro x hx
  rcases List.mem_map.mp hx with ⟨t, ht, rfl⟩
  unfold evalTerm
  rcases hterms t ht with hk | hk
  · rw [hk, hf, mul_zero, zero_mul]
  · rw [hk, hr, mul_zero, zero_mul]

/-- C5 witness: the step A to B with both rate constants zero. -/
theorem C5_witness :
    stepAB.kf = 0 ∧ stepAB.kr = 0 ∧
    get_differential_equations stepAB = .ok (buildDEMap stepAB) ∧
    (['A'], deA_AB) ∈ buildDEMap stepAB ∧
    evalDE (fun a b => a * b) (fun _ => 2) deA_AB = 0 := by
  refine ⟨rfl, rfl, by decide, by decide, ?_⟩
  exact C5_zero_rates stepAB rfl rfl (buildDEMap stepAB) (by decide) ['A'] deA_AB (by decide)
    (fun a b => a * b) (fun _ => 2)

/-! ### Claim C4 (trajectory time structure) -/

theorem linspaceQ_head (a b : ℚ) (n : ℕ) (h : 1 ≤ n) :
    (linspaceQ a b n).head? = some a := by
  rcases Nat.exists_eq_add_of_le h with ⟨m, hm⟩
  subst hm
  unfold linspaceQ
  rw [Nat.add_comm, List.range_succ_eq_map]
  simp

theorem linspaceQ_getLast (a b : ℚ) (n : ℕ) (h : 2 ≤ n) :
    (linspaceQ a b n).getLast? = some b := by
  rcases Nat.exists_eq_add_of_le h with ⟨m, hm⟩
  subst hm
  unfold linspaceQ
  rw [Nat.add_comm 2 m, List.range_succ, List.map_append]
  simp only [List.map_cons, List.map_nil]
  rw [List.getLast?_concat]
  have hne : ((m + 2 : ℕ) : ℚ) - 1 ≠ 0 := by
    push_cast
    intro hh
    nlinarith [hh]
  have : a + (b - a) * ((m + 1 : ℕ) : ℚ) / (((m + 2 : ℕ) : ℚ) - 1) = b := by
    push_cast at hne ⊢
    field_simp
    ring
  rw [this]

theorem linspaceQ_chain (a b : ℚ) (n : ℕ) (h : a < b) :
    List.Chain' (· < ·) (linspaceQ a b n) := by
  match n with
  | 0 => exact List.chain'_nil
  | 1 => exact List.chain'_singleton _
  | m + 2 =>
    unfold linspaceQ
    rw [List.chain'_map]
    rw [show m + 2 = (m + 1) + 1 from rfl, List.chain'_range_succ]
    intro i hi
    have hden : (0 : ℚ) < ((m + 2 : ℕ) : ℚ) - 1 := by
      push_cast
      nlinarith [Nat.cast_nonneg (α := ℚ) m]
    apply add_lt_add_left
    rw [div_lt_div_iff_of_pos_right hden]
    have hba : (0 : ℚ) < b - a := sub_pos.mpr h
    have hii : ((i : ℚ)) < ((i + 1 : ℕ) : ℚ) := by
      push_cast
      linarith
    exact mul_lt_mul_of_pos_left hii hba

/-- C4 counterexample: the claim asserts monotonically increasing sample
times with no duplicated boundary sample between adjacent segments. With
time horizon 10, 10 steps and one event at time 5, the concatenated segment
sample times are 0, 5/4, 5/2, 15/4, 5, 5, 25/4, 15/2, 35/4, 10: each linspace
includes both of its endpoints, so the boundary time 5 appears twice —
as the last sample of the first segment and the first sample of the second —
and the whole is not strictly increasing. -/
theorem C4_counterexample :
    progressTimes 10 10 [5] = [0, 5/4, 5/2, 15/4, 5, 5, 25/4, 15/2, 35/4, 10] ∧
    ¬ List.Chain' (· < ·) [(0 : ℚ), 5/4, 5/2, 15/4, 5, 5, 25/4, 15/2, 35/4, 10] := by
  constructor
  · decide
  · intro h
    simp only [List.chain'_cons, List.chain'_singleton, and_true] at h
    exact absurd h.2.2.2.2.1 (lt_irrefl (5 : ℚ))

/-- C4 amended: the Time column of the returned DataFrame is one fresh
global linspace over the horizon and is strictly increasing whenever the
horizon is positive; the concatenated segment grids, however, duplicate the
boundary sample at every on-grid event: with an event time that equals its
own grid rounding and segments of at least 2 and at least 1 samples, the
event time is both the last sample time of the segment before it and the
first sample time of the segment after it. -/
theorem C4_time_grid (timeEnd : ℚ) (numberSteps : ℕ) (t : ℚ)
    (hT : 0 < timeEnd)
    (hgrid : gridRound timeEnd numberSteps t = t)
    (hn1 : 2 ≤ segCount timeEnd numberSteps 0 t)
    (hn2 : 1 ≤ segCount timeEnd numberSteps t timeEnd) :
    List.Chain' (· < ·) (dfTimes timeEnd numberSteps) ∧
    ∃ s1 s2, progressSegments timeEnd numberSteps 0 [t, timeEnd] = [s1, s2] ∧
      s1.getLast? = some t ∧ s2.head? = some t := by
  refine ⟨linspaceQ_chain 0 timeEnd numberSteps hT, ?_⟩
  refine ⟨linspaceQ 0 t (segCount timeEnd numberSteps 0 t),
    linspaceQ t timeEnd (segCount timeEnd numberSteps t timeEnd), ?_, ?_, ?_⟩
  · simp only [progressSegments]
    rw [hgrid]
  · exact linspaceQ_getLast 0 t _ hn1
  · exact linspaceQ_head t timeEnd _ hn2

/-- C4 witness: horizon 10, 10 steps, one on-grid event at time 5. -/
theorem C4_witness :
    (0 : ℚ) < 10 ∧ gridRound 10 10 5 = 5 ∧
    2 ≤ segCount 10 10 0 5 ∧ 1 ≤ segCount 10 10 5 10 ∧
    (List.Chain' (· < ·) (dfTimes 10 10) ∧
      ∃ s1 s2, progressSegments 10 10 0 [5, 10] = [s1, s2] ∧
        s1.getLast? = some 5 ∧ s2.head? = some 5) := by
  refine ⟨by decide, by decide, by decide, by decide, ?_⟩
  exact C4_time_grid 10 10 5 (by decide) (by decide) (by decide) (by decide)

/-! ### String lemmas for the parsing round trip -/

theorem containsArrow_cons_cons (c d : Char) (t : Str) :
    containsArrow (c :: d :: t) =
      ((decide (c = '-') && decide (d = '>')) || containsArrow (d :: t)) := rfl

theorem containsArrow_cons_ne (c : Char) (w : Str) (h : ¬ c = '-') :
    containsArrow (c :: w) = containsArrow w := by
  cases w with
  | nil => rfl
  | cons d t => simp [containsArrow_cons_cons, h]

theorem noDash_noArrow (s : Str) (h : ¬ '-' ∈ s) : containsArrow s = false := by
  induction s with
  | nil => rfl
  | cons c t ih =>
    have hc : ¬ c = '-' := fun he => h (he ▸ List.mem_cons_self _ _)
    rw [containsArrow_cons_ne c t hc]
    exact ih (fun hm => h (List.mem_cons_of_mem _ hm))

theorem containsArrow_cons_of (c : Char) (w : Str) (hw : containsArrow w = true) :
    containsArrow (c :: w) = true := by
  cases w with
  | nil => cases hw
  | cons d t =>
    rw [containsArrow_cons_cons, hw]
    simp

theorem containsArrow_append_right (a b : Str) (hb : containsArrow b = true) :
    containsArrow (a ++ b) = true := by
  induction a with
  | nil => simpa using hb
  | cons c a' ih => exact containsArrow_cons_of c _ ih

theorem noArrow_append : ∀ (a b : Str), containsArrow a = false → containsArrow b = false →
    ¬ (a.getLast? = some '-' ∧ b.head? = some '>') → containsArrow (a ++ b) = false
  | [], b, _, hb, _ => by simpa using hb
  | [c], b, _, hb, hcross => by
    cases b with
    | nil => rfl
    | cons d t =>
      rw [List.singleton_append, containsArrow_cons_cons]
      have h1 : (decide (c = '-') && decide (d = '>')) = false := by
        by_cases hc : c = '-'
        · by_cases hd : d = '>'
          · exact (hcross ⟨by rw [hc]; rfl, by rw [hd]; rfl⟩).elim
          · simp [hd]
        · simp [hc]
      rw [h1, hb]
      rfl
  | c :: c2 :: a'', b, ha, hb, hcross => by
    rw [containsArrow_cons_cons] at ha
    rcases Bool.or_eq_false_iff.mp ha with ⟨h1, h2⟩
    rw [List.cons_append, List.cons_append, containsArrow_cons_cons, ← List.cons_append, h1]
    have hcross' : ¬ ((c2 :: a'').getLast? = some '-' ∧ b.head? = some '>') := by
      intro ⟨hx, hy⟩
      exact hcross ⟨by rw [List.getLast?_cons_cons]; exact hx, hy⟩
    rw [noArrow_append (c2 :: a'') b h2 hb hcross']
    rfl

theorem consH_shape (c : Char) (l : List Str) :
    ∀ h r, l = h :: r → consH c l = (c :: h) :: r := by
  intro h r he
  subst he
  rfl

theorem splitArrow_ne_nil : ∀ s : Str, splitArrow s ≠ []
  | [] => by simp [splitArrow]
  | [c] => by simp [splitArrow]
  | c :: d :: t => by
    rw [splitArrow]
    split
    · simp
    · rcases hh : splitArrow (d :: t) with - | ⟨h, r⟩ <;> simp [consH]

theorem noArrow_splitArrow : ∀ s : Str, containsArrow s = false → splitArrow s = [s]
  | [], _ => rfl
  | [c], _ => rfl
  | c :: d :: t, h => by
    rw [containsArrow_cons_cons] at h
    rcases Bool.or_eq_false_iff.mp h with ⟨h1, h2⟩
    have hnot : ¬ (c = '-' ∧ d = '>') := by
      intro ⟨hc, hd⟩
      rw [hc, hd] at h1
      simp at h1
    rw [splitArrow, if_neg hnot, noArrow_splitArrow (d :: t) h2]
    rfl

theorem splitArrow_head : ∀ (s h : Str) (r : List Str), splitArrow s = h :: r →
    h = [] ∨ h.head? = s.head?
  | [], h, r, he => by
    rw [splitArrow] at he
    cases he
    exact Or.inl rfl
  | [c], h, r, he => by
    rw [splitArrow] at he
    cases he
    exact Or.inr rfl
  | c :: d :: t, h, r, he => by
    rw [splitArrow] at he
    split at he
    · cases he
      exact Or.inl rfl
    · rcases hh : splitArrow (d :: t) with - | ⟨h0, r0⟩
      · exact (splitArrow_ne_nil _ hh).elim
      · rw [consH_shape c _ h0 r0 hh] at he
        cases he
        exact Or.inr rfl

theorem splitArrow_parts : ∀ (s : Str) (part : Str), part ∈ splitArrow s →
    containsArrow part = false ∧ ∀ ch ∈ part, ch ∈ s
  | [], part, hp => by
    rw [splitArrow] at hp
    rcases List.mem_singleton.mp hp with rfl
    exact ⟨rfl, by simp⟩
  | [c], part, hp => by
    rw [splitArrow] at hp
    rcases List.mem_singleton.mp hp with rfl
    exact ⟨rfl, by simp⟩
  | c :: d :: t, part, hp => by
    rw [splitArrow] at hp
    split at hp
    · rcases List.mem_cons.mp hp with rfl | hp
      · exact ⟨rfl, by simp⟩
      · rcases splitArrow_parts t part hp with ⟨h1, h2⟩
        exact ⟨h1, fun ch hch => by simp [h2 ch hch]⟩
    · next hsep =>
      rcases hh : splitArrow (d :: t) with - | ⟨h0, r0⟩
      · exact (splitArrow_ne_nil _ hh).elim
      · rw [consH_shape c _ h0 r0 hh] at hp
        rcases List.mem_cons.mp hp with rfl | hp
        · have hparts := splitArrow_parts (d :: t) h0 (hh ▸ List.mem_cons_self _ _)
          constructor
          · by_cases hc : c = '-'
            · cases hh0 : h0 with
              | nil => rfl
              | cons e h0' =>
                have hhead := splitArrow_head (d :: t) h0 r0 hh
                rw [hh0] at hhead
                rcases hhead with hne | hhead
                · cases hne
                · have he : e = d := by
                    simpa using hhead
                  subst he
                  rw [containsArrow_cons_cons]
                  have hd : ¬ e = '>' := fun hd => hsep ⟨hc, hd⟩
                  rw [← hh0]
                  have : (decide (c = '-') && decide (e = '>')) = false := by simp [hd]
                  rw [hh0] at hparts ⊢
                  rw [this, hparts.1]
                  rfl
            · rw [containsArrow_cons_ne c h0 hc]
              exact hparts.1
          · intro ch hch
            rcases List.mem_cons.mp hch with rfl | hch
            · exact List.mem_cons_self _ _
            · exact List.mem_cons_of_mem _ (hparts.2 ch hch)
        · have hparts := splitArrow_parts (d :: t) part (hh ▸ List.mem_cons_of_mem _ hp)
          exact ⟨hparts.1, fun ch hch => List.mem_cons_of_mem _ (hparts.2 ch hch)⟩

theorem splitOnChar_ne_nil (sep : Char) : ∀ s : Str, splitOnChar sep s ≠ []
  | [] => by simp [splitOnChar]
  | c :: t => by
    rw [splitOnChar]
    split
    · simp
    · rcases hh : splitOnChar sep t with - | ⟨h, r⟩ <;> simp [consH]

theorem noChar_splitOnChar (sep : Char) : ∀ s : Str, ¬ sep ∈ s → splitOnChar sep s = [s]
  | [], _ => rfl
  | c :: t, h => by
    have hc : ¬ c = sep := fun he => h (he ▸ List.mem_cons_self _ _)
    rw [splitOnChar, if_neg hc,
      noChar_splitOnChar sep t (fun hm => h (List.mem_cons_of_mem _ hm))]
    rfl

theorem splitOnChar_head (sep : Char) : ∀ (s h : Str) (r : List Str),
    splitOnChar sep s = h :: r → h = [] ∨ h.head? = s.head?
  | [], h, r, he => by
    rw [splitOnChar] at he
    cases he
    exact Or.inl rfl
  | c :: t, h, r, he => by
    rw [splitOnChar] at he
    split at he
    · cases he
      exact Or.inl rfl
    · rcases hh : splitOnChar sep t with - | ⟨h0, r0⟩
      · exact (splitOnChar_ne_nil sep _ hh).elim
      · rw [consH_shape c _ h0 r0 hh] at he
        cases he
        exact Or.inr rfl

theorem splitOnChar_parts (sep : Char) : ∀ (s part : Str), part ∈ splitOnChar sep s →
    (¬ sep ∈ part) ∧ (∀ ch ∈ part, ch ∈ s) ∧
      (containsArrow s = false → containsArrow part = false)
  | [], part, hp => by
    rw [splitOnChar] at hp
    rcases List.mem_singleton.mp hp with rfl
    exact ⟨by simp, by simp, fun _ => rfl⟩
  | c :: t, part, hp => by
    rw [splitOnChar] at hp
    split at hp
    · next hc =>
      rcases List.mem_cons.mp hp with rfl | hp
      · exact ⟨by simp, by simp, fun _ => rfl⟩
      · rcases splitOnChar_parts sep t part hp with ⟨h1, h2, h3⟩
        refine ⟨h1, fun ch hch => List.mem_cons_of_mem _ (h2 ch hch), fun ha => ?_⟩
        apply h3
        subst hc
        cases t with
        | nil => rfl
        | cons d t' =>
          rw [containsArrow_cons_cons] at ha
          exact (Bool.or_eq_false_iff.mp ha).2
    · next hc =>
      rcases hh : splitOnChar sep t with - | ⟨h0, r0⟩
      · exact (splitOnChar_ne_nil sep _ hh).elim
      · rw [consH_shape c _ h0 r0 hh] at hp
        rcases List.mem_cons.mp hp with rfl | hp
        · rcases splitOnChar_parts sep t h0 (hh ▸ List.mem_cons_self _ _) with ⟨h1, h2, h3⟩
          refine ⟨?_, ?_, ?_⟩
          · intro hm
            rcases List.mem_cons.mp hm with he | hm
            · exact hc he.symm
            · exact h1 hm
          · intro ch hch
            rcases List.mem_cons.mp hch with rfl | hch
            · exact List.mem_cons_self _ _
            · exact List.mem_cons_of_mem _ (h2 ch hch)
          · intro ha
            have hat : containsArrow t = false := by
              cases t with
              | nil => rfl
              | cons d t' =>
                rw [containsArrow_cons_cons] at ha
                exact (Bool.or_eq_false_iff.mp ha).2
            by_cases hcc : c = '-'
            · cases hh0 : h0 with
              | nil => rfl
              | cons e h0' =>
                have hhead := splitOnChar_head sep t h0 r0 hh
                rw [hh0] at hhead
                rcases hhead with hne | hhead
                · cases hne
                · cases t with
                  | nil => cases hhead
                  | cons d t' =>
                    have he : e = d := by simpa using hhead
                    subst he
                    rw [containsArrow_cons_cons]
                    rw [containsArrow_cons_cons] at ha
                    rcases Bool.or_eq_false_iff.mp ha with ⟨ha1, -⟩
                    rw [ha1]
                    have hfin : containsArrow (e :: h0') = false := by
                      rw [← hh0]
                      exact h3 hat
                    rw [hfin]
                    rfl
            · rw [containsArrow_cons_ne c h0 hcc]
              exact h3 hat
        · rcases splitOnChar_parts sep t part (hh ▸ List.mem_cons_of_mem _ hp) with ⟨h1, h2, h3⟩
          refine ⟨h1, fun ch hch => List.mem_cons_of_mem _ (h2 ch hch), fun ha => ?_⟩
          apply h3
          cases t with
          | nil => rfl
          | cons d t' =>
            rw [containsArrow_cons_cons] at ha
            exact (Bool.or_eq_false_iff.mp ha).2

theorem splitOnChar_append (sep : Char) :
    ∀ (a w : Str), ¬ sep ∈ a → splitOnChar sep (a ++ sep :: w) = a :: splitOnChar sep w
  | [], w, _ => by
    rw [List.nil_append, splitOnChar, if_pos rfl]
  | c :: a', w, h => by
    have hc : ¬ c = sep := fun he => h (he ▸ List.mem_cons_self _ _)
    rw [List.cons_append, splitOnChar, if_neg hc,
      splitOnChar_append sep a' w (fun hm => h (List.mem_cons_of_mem _ hm))]
    rfl

theorem splitOnChar_joinSep (sep : Char) :
    ∀ (ts : List Str), ts ≠ [] → (∀ t ∈ ts, ¬ sep ∈ t) →
      splitOnChar sep (joinSep [sep] ts) = ts
  | [], h, _ => absurd rfl h
  | [t], _, hts => by
    rw [joinSep, noChar_splitOnChar sep t (hts t (List.mem_singleton.mpr rfl))]
  | t :: t2 :: rest, _, hts => by
    rw [joinSep, List.append_assoc, List.singleton_append,
      splitOnChar_append sep t _ (hts t (List.mem_cons_self _ _)),
      splitOnChar_joinSep sep (t2 :: rest) (by simp)
        (fun x hx => hts x (List.mem_cons_of_mem _ hx))]

theorem pyStrip_append (a b : Str) : pyStrip (a ++ b) = pyStrip a ++ pyStrip b := by
  simp [pyStrip]

theorem pyStrip_clean (s : Str) (h1 : ¬ ' ' ∈ s) (h2 : ¬ '\t' ∈ s) : pyStrip s = s := by
  unfold pyStrip
  rw [List.filter_eq_self]
  intro c hc
  have hcs : ¬ c = ' ' := fun he => h1 (he ▸ hc)
  have hct : ¬ c = '\t' := fun he => h2 (he ▸ hc)
  simp [hcs, hct]

theorem mem_pyStrip (c : Char) (s : Str) (h : c ∈ pyStrip s) : c ∈ s :=
  (List.mem_filter.mp h).1

/-! ### Decimal digit lemmas -/

theorem natDigitChar_isDigit (k : ℕ) (h : k < 10) : (natDigitChar k).isDigit = true := by
  interval_cases k <;> decide

theorem natDigitChar_val (k : ℕ) (h : k < 10) : digitVal (natDigitChar k) = k := by
  interval_cases k <;> decide

theorem natToDigitsF_digits : ∀ (fuel n : ℕ), ∀ c ∈ natToDigitsF fuel n, c.isDigit = true
  | 0, n => by simp [natToDigitsF]
  | fuel + 1, n => by
    rw [natToDigitsF]
    split
    · next h =>
      intro c hc
      rcases List.mem_singleton.mp hc with rfl
      exact natDigitChar_isDigit n h
    · intro c hc
      rcases List.mem_cons.mp hc with rfl | hc
      · exact natDigitChar_isDigit _ (Nat.mod_lt _ (by omega))
      · exact natToDigitsF_digits fuel (n / 10) c hc

theorem natRepr_digits (n : ℕ) : ∀ c ∈ natRepr n, c.isDigit = true := by
  intro c hc
  exact natToDigitsF_digits (n + 1) n c (List.mem_reverse.mp hc)

theorem natRepr_ne_nil (n : ℕ) : natRepr n ≠ [] := by
  unfold natRepr natToDigitsF
  split
  · simp
  · simp

theorem natOfDigits_concat (l : Str) (c : Char) :
    natOfDigits (l ++ [c]) = 10 * natOfDigits l + digitVal c := by
  unfold natOfDigits
  rw [List.foldl_append]
  rfl

theorem natOfDigits_natToDigitsF :
    ∀ (fuel n : ℕ), n < 10 ^ fuel → natOfDigits (natToDigitsF fuel n).reverse = n
  | 0, n, h => by
    interval_cases n
    rfl
  | fuel + 1, n, h => by
    rw [natToDigitsF]
    split
    · next h10 =>
      show natOfDigits [natDigitChar n] = n
      show 10 * 0 + digitVal (natDigitChar n) = n
      rw [natDigitChar_val n h10]
      omega
    · next h10 =>
      rw [List.reverse_cons, natOfDigits_concat]
      rw [natOfDigits_natToDigitsF fuel (n / 10) (by
        rw [Nat.div_lt_iff_lt_mul (by omega)]
        calc n < 10 ^ (fuel + 1) := h
        _ = 10 ^ fuel * 10 := by ring)]
      rw [natDigitChar_val _ (Nat.mod_lt _ (by omega))]
      omega

theorem natOfDigits_natRepr (n : ℕ) : natOfDigits (natRepr n) = n := by
  unfold natRepr
  apply natOfDigits_natToDigitsF
  calc n < 10 ^ n := Nat.lt_pow_self (by omega) n
  _ ≤ 10 ^ (n + 1) := Nat.pow_le_pow_right (by omega) (by omega)

theorem takeWhile_append_all (p : Char → Bool) :
    ∀ (a b : Str), (∀ c ∈ a, p c = true) → (∀ c, b.head? = some c → p c = false) →
      (a ++ b).takeWhile p = a
  | [], b, _, hb => by
    cases b with
    | nil => rfl
    | cons c t =>
      rw [List.nil_append, List.takeWhile_cons, hb c rfl]
      simp
  | c :: a', b, ha, hb => by
    rw [List.cons_append, List.takeWhile_cons, ha c (List.mem_cons_self _ _),
      takeWhile_append_all p a' b (fun x hx => ha x (List.mem_cons_of_mem _ hx)) hb]
    simp

theorem drop_takeWhile_length :
    ∀ (l : Str) (p : Char → Bool), l.drop (l.takeWhile p).length = l.dropWhile p
  | [], p => rfl
  | c :: t, p => by
    rw [List.takeWhile_cons, List.dropWhile_cons]
    by_cases h : p c = true
    · rw [h]
      simp only [if_true, List.length_cons, List.drop_succ_cons]
      exact drop_takeWhile_length t p
    · rw [Bool.not_eq_true] at h
      rw [h]
      simp

theorem head_dropWhile_false (p : Char → Bool) :
    ∀ (l : Str) (c : Char), (l.dropWhile p).head? = some c → p c = false
  | [], c, h => by cases h
  | c0 :: t, c, h => by
    rw [List.dropWhile_cons] at h
    split at h
    · exact head_dropWhile_false p t c h
    · next hq =>
      cases h
      exact Bool.not_eq_true _ ▸ hq

/-! ### More arrow and digit-scan lemmas -/

theorem containsArrow_append_left : ∀ (l y : Str),
    containsArrow l = true → containsArrow (l ++ y) = true
  | [], _, h => by cases h
  | [c], _, h => by cases h
  | c :: d :: t, y, h => by
    rw [containsArrow_cons_cons] at h
    rw [List.cons_append, List.cons_append, containsArrow_cons_cons, ← List.cons_append]
    rcases Bool.or_eq_true_iff.mp h with h1 | h1
    · rw [h1]
      rfl
    · rw [containsArrow_append_left (d :: t) y h1]
      simp

theorem noArrow_within (l w : Str) (hinf : l.IsInfix w) (hw : containsArrow w = false) :
    containsArrow l = false := by
  cases hcl : containsArrow l with
  | false => rfl
  | true =>
    rcases hinf with ⟨x, y, hxy⟩
    rw [← hxy, List.append_assoc, containsArrow_append_right x _
      (containsArrow_append_left l y hcl)] at hw
    cases hw

theorem takeWhile_eq_nil_head (p : Char → Bool) (l : Str)
    (h : l.takeWhile p = []) : ∀ c, l.head? = some c → p c = false := by
  intro c hc
  cases l with
  | nil => cases hc
  | cons c0 t =>
    cases hc
    rw [List.takeWhile_cons] at h
    by_cases hp : p c = true
    · rw [hp] at h
      simp at h
    · exact Bool.not_eq_true _ ▸ hp

theorem dropWhile_append_all (p : Char → Bool) :
    ∀ (a b : Str), (∀ c ∈ a, p c = true) → (∀ c, b.head? = some c → p c = false) →
      (a ++ b).dropWhile p = b
  | [], b, _, hb => by
    cases b with
    | nil => rfl
    | cons c t =>
      rw [List.nil_append, List.dropWhile_cons, hb c rfl]
      simp
  | c :: a', b, ha, hb => by
    rw [List.cons_append, List.dropWhile_cons, ha c (List.mem_cons_self _ _),
      dropWhile_append_all p a' b (fun x hx => ha x (List.mem_cons_of_mem _ hx)) hb]
    simp

/-! ### Constructor and dict-addition lemmas -/

theorem foldl_initFold_fresh : ∀ (l ls ma : StoichMap),
    (∀ kv ∈ l, lsTagged kv.1 = false) →
    (ma.map Prod.fst ++ l.map Prod.fst).Nodup →
    l.foldl initFold (ls, ma) = (ls, ma ++ l)
  | [], ls, ma, _, _ => by simp
  | kv :: t, ls, ma, hls, hnd => by
    simp only [List.foldl_cons]
    have hfresh : alLookup ma kv.1 = none := by
      rw [alLookup_eq_none]
      intro kv' hkv' he
      have hd := (List.nodup_append.mp hnd).2.2
      exact hd (List.mem_map_of_mem Prod.fst hkv')
        (by rw [List.map_cons]; exact he ▸ List.mem_cons_self _ _)
    have hstep : initFold (ls, ma) kv = (ls, ma ++ [kv]) := by
      unfold initFold
      rw [hls kv (List.mem_cons_self _ _)]
      simp only [Bool.false_eq_true, if_false, hfresh]
      rw [alSet_of_not_mem ma kv.1 kv.2 (by unfold alMem; rw [hfresh]; rfl)]
    rw [hstep]
    have hnd' : ((ma ++ [kv]).map Prod.fst ++ t.map Prod.fst).Nodup := by
      rw [List.map_append, List.append_assoc]
      simpa using hnd
    rw [foldl_initFold_fresh t ls (ma ++ [kv])
      (fun x hx => hls x (List.mem_cons_of_mem _ hx)) hnd']
    rw [List.append_assoc, List.singleton_append]

theorem mk_noop (x y : StoichMap)
    (hx1 : ∀ kv ∈ x, lsTagged kv.1 = false) (hx2 : (x.map Prod.fst).Nodup)
    (hy1 : ∀ kv ∈ y, lsTagged kv.1 = false) (hy2 : (y.map Prod.fst).Nodup) :
    mkSimpleStep x y = ⟨x, y, [], [], 0, 0⟩ := by
  unfold mkSimpleStep
  rw [foldl_initFold_fresh x [] [] hx1 (by simpa using hx2),
    foldl_initFold_fresh y [] [] hy1 (by simpa using hy2)]
  simp

theorem dictAddition_nil_right (x : StoichMap) : dictAddition x [] = x := by
  unfold dictAddition
  simp [alLookup, alMem]

theorem dictAddition_nil_left (y : StoichMap)
    (hy : ∀ kv ∈ y, ∃ n : ℕ, kv.2 = PyNum.int (n : ℤ)) : dictAddition [] y = y := by
  unfold dictAddition
  simp only [List.map_nil, List.nil_append]
  have hfil : List.filter (fun kv : Str × PyNum => !alMem ([] : StoichMap) kv.1) y = y :=
    List.filter_eq_self.mpr (fun kv _ => rfl)
  rw [hfil]
  have hcongr : ∀ kv ∈ y, (kv.1, pyAdd (.int 0) kv.2) = kv := by
    intro kv hkv
    rcases hy kv hkv with ⟨n, hn⟩
    rw [hn]
    show (kv.1, PyNum.int (0 + (n : ℤ))) = kv
    rw [zero_add, ← hn]
  rw [List.map_congr_left hcongr]
  exact List.map_id y

theorem dictAddition_fresh_single (x : StoichMap) (k : Str) (v : PyNum)
    (hk : alLookup x k = none) (hv : ∃ n : ℕ, v = PyNum.int (n : ℤ)) :
    dictAddition x [(k, v)] = x ++ [(k, v)] := by
  unfold dictAddition
  have hkeys := (alLookup_eq_none x k).mp hk
  have hmap : ∀ kv ∈ x,
      (match alLookup [(k, v)] kv.1 with
       | some w => (kv.1, pyAdd kv.2 w)
       | none => kv) = kv := by
    intro kv hkv
    have hne : ¬ k = kv.1 := fun he => hkeys kv hkv he.symm
    simp [alLookup, hne]
  rw [List.map_congr_left hmap]
  rw [show List.map (fun (a : Str × PyNum) => a) x = x from List.map_id x]
  have hfil : List.filter (fun kv => !alMem x kv.1) [(k, v)] = [(k, v)] := by
    rw [List.filter_eq_self]
    intro kv hkv
    rcases List.mem_singleton.mp hkv with rfl
    unfold alMem
    rw [hk]
    rfl
  rw [hfil]
  rcases hv with ⟨n, hn⟩
  subst hn
  show x ++ [(k, PyNum.int (0 + (n : ℤ)))] = x ++ [(k, PyNum.int (n : ℤ))]
  rw [zero_add]

/-! ### parseTerm without a slash -/

theorem parseTerm_noSlash_eq (flag : RoleFlag) (u : Str) (hslash : ¬ '/' ∈ u) :
    parseTerm flag u =
      if (u.takeWhile Char.isDigit).isEmpty then
        .ok (mkTermStep flag u (.int (1 : ℤ)))
      else
        .ok (mkTermStep flag (u.dropWhile Char.isDigit)
          (.int ((natOfDigits (u.takeWhile Char.isDigit) : ℕ) : ℤ))) := by
  have hhead : ((u.drop (u.takeWhile Char.isDigit).length).head? == some '/') = false := by
    rw [beq_eq_false_iff_ne]
    intro he
    exact hslash (List.mem_of_mem_drop (List.mem_of_mem_head? he))
  have hcontu : (u.contains '/') = false := by
    rw [← Bool.not_eq_true]
    intro hc
    exact hslash (List.elem_iff.mp hc)
  by_cases hd1 : (u.takeWhile Char.isDigit).isEmpty
  · rw [if_pos hd1]
    have hcont1 : (('1' :: u).contains '/') = false := by
      rw [← Bool.not_eq_true]
      intro hc
      rcases List.mem_cons.mp (List.elem_iff.mp hc) with he | hm
      · cases he
      · exact hslash hm
    unfold parseTerm
    simp only [hhead, Bool.false_and, Bool.and_false, hd1, Bool.not_true, Bool.false_or,
      Bool.false_eq_true, if_false, hcont1]
    have h1 : natOfDigits (List.take 1 ('1' :: u)) = 1 := by
      show natOfDigits ['1'] = 1
      decide
    rw [h1]
    rfl
  · have hd1f : (u.takeWhile Char.isDigit).isEmpty = false := by
      rw [← Bool.not_eq_true]
      exact hd1
    rw [if_neg hd1]
    unfold parseTerm
    simp only [hhead, Bool.false_and, Bool.and_false, hd1f, Bool.not_false, Bool.or_true,
      Bool.false_eq_true, if_false, if_true, hcontu]
    rw [drop_takeWhile_length]
    rw [← List.prefix_iff_eq_take.mp (List.takeWhile_prefix _)]

/-! ### Side-level parse lemmas -/

theorem parseSide_eq (flag : RoleFlag) (s : Str) :
    parseSide flag s = ((splitOnChar '+' s).mapM (parseTerm flag)).map sumSteps := by
  unfold parseSide
  by_cases h : s.contains '+'
  · rw [if_pos h]
  · rw [if_neg h]
    have hsp : splitOnChar '+' s = [s] :=
      noChar_splitOnChar '+' s (fun hm => h (List.elem_iff.mpr hm))
    rw [hsp]
    rcases ht : parseTerm flag s with e | st
    · simp only [List.mapM, List.mapM.loop, ht]
      rfl
    · simp only [List.mapM, List.mapM.loop, ht]
      rfl

theorem mapM_ok_forall {α β : Type} (f : α → Except PyErr β) :
    ∀ (l : List α) (res : List β), l.mapM f = .ok res → ∀ b ∈ res, ∃ a ∈ l, f a = .ok b
  | [], res, hok => by
    rw [List.mapM_nil] at hok
    cases hok
    simp
  | a :: l, res, hok => by
    rw [List.mapM_cons] at hok
    rcases ha : f a with e | x
    · rw [ha] at hok
      cases hok
    · rw [ha] at hok
      rcases hl : l.mapM f with e | xs
      · rw [hl] at hok
        cases hok
      · rw [hl] at hok
        have hres : res = x :: xs := by
          cases hok
          rfl
        subst hres
        intro b hb
        rcases List.mem_cons.mp hb with rfl | hb
        · exact ⟨a, List.mem_cons_self _ _, ha⟩
        · rcases mapM_ok_forall f l xs hl b hb with ⟨a', ha', hfa'⟩
          exact ⟨a', List.mem_cons_of_mem _ ha', hfa'⟩

theorem mapM_ok_length {α β : Type} (f : α → Except PyErr β) :
    ∀ (l : List α) (res : List β), l.mapM f = .ok res → res.length = l.length
  | [], res, hok => by
    rw [List.mapM_nil] at hok
    cases hok
    rfl
  | a :: l, res, hok => by
    rw [List.mapM_cons] at hok
    rcases ha : f a with e | x
    · rw [ha] at hok
      cases hok
    · rw [ha] at hok
      rcases hl : l.mapM f with e | xs
      · rw [hl] at hok
        cases hok
      · rw [hl] at hok
        have hres : res = x :: xs := by
          cases hok
          rfl
        subst hres
        simp [mapM_ok_length f l xs hl]

theorem mkTermStep_reac (name : Str) (c : PyNum) :
    mkTermStep .reacF name c =
      if lsTagged name then ⟨[], [], [(name, c)], [], 0, 0⟩
      else ⟨[(name, c)], [], [], [], 0, 0⟩ := by
  unfold mkTermStep mkSimpleStep initFold
  by_cases h : lsTagged name
  · simp [h, alSet, alLookup]
  · simp [h, alSet, alLookup]

theorem mkTermStep_prod (flag : RoleFlag) (hflag : ¬ flag = .reacF) (name : Str) (c : PyNum) :
    mkTermStep flag name c =
      if lsTagged name then ⟨[], [], [], [(name, c)], 0, 0⟩
      else ⟨[], [(name, c)], [], [], 0, 0⟩ := by
  have hsh : mkTermStep flag name c = mkSimpleStep [] [(name, c)] := by
    cases flag with
    | reacF => exact absurd rfl hflag
    | noneF => rfl
    | prodF => rfl
  rw [hsh]
  unfold mkSimpleStep initFold
  by_cases h : lsTagged name
  · simp [h, alSet, alLookup]
  · simp [h, alSet, alLookup]

theorem singleton_printable (name : Str) (n : ℕ) (hname : printableName name)
    (hls : lsTagged name = false) : printableMap [(name, PyNum.int (n : ℤ))] := by
  constructor
  · simp
  · intro kv hkv
    rcases List.mem_singleton.mp hkv with rfl
    exact ⟨hname, hls, n, rfl⟩

theorem printable_nil : printableMap [] := ⟨List.nodup_nil, by simp⟩

theorem parseTerm_reac_shape (u : Str) (hslash : ¬ '/' ∈ u)
    (harrow : containsArrow u = false) (hplus : ¬ '+' ∈ u)
    (hspace : ¬ ' ' ∈ u) (htab : ¬ '\t' ∈ u)
    (x : SimpleStep) (hok : parseTerm .reacF u = .ok x) :
    x.products = [] ∧ printableMap x.reactants := by
  rw [parseTerm_noSlash_eq .reacF u hslash] at hok
  by_cases hd1 : (u.takeWhile Char.isDigit).isEmpty
  · rw [if_pos hd1] at hok
    have hx : x = mkTermStep .reacF u (.int (1 : ℤ)) := (Except.ok.inj hok).symm
    subst hx
    rw [mkTermStep_reac]
    have hpn : printableName u :=
      ⟨harrow, hplus, hspace, htab, hslash,
        takeWhile_eq_nil_head Char.isDigit u (List.isEmpty_iff.mp hd1)⟩
    by_cases hls : lsTagged u
    · rw [if_pos hls]
      exact ⟨rfl, printable_nil⟩
    · rw [if_neg hls]
      refine ⟨rfl, ?_⟩
      have := singleton_printable u 1 hpn (by rw [← Bool.not_eq_true]; exact hls)
      simpa using this
  · rw [if_neg hd1] at hok
    have hx : x = mkTermStep .reacF (u.dropWhile Char.isDigit)
        (.int ((natOfDigits (u.takeWhile Char.isDigit) : ℕ) : ℤ)) := (Except.ok.inj hok).symm
    subst hx
    rw [mkTermStep_reac]
    set name := u.dropWhile Char.isDigit with hnamedef
    have hsub : ∀ c ∈ name, c ∈ u := fun c hc =>
      (List.dropWhile_suffix Char.isDigit).subset hc
    have hpn : printableName name := by
      refine ⟨noArrow_within name u (List.dropWhile_suffix Char.isDigit).isInfix harrow,
        fun hm => hplus (hsub _ hm), fun hm => hspace (hsub _ hm),
        fun hm => htab (hsub _ hm), fun hm => hslash (hsub _ hm),
        fun c hc => head_dropWhile_false Char.isDigit u c hc⟩
    by_cases hls : lsTagged name
    · rw [if_pos hls]
      exact ⟨rfl, printable_nil⟩
    · rw [if_neg hls]
      refine ⟨rfl, ?_⟩
      have := singleton_printable name (natOfDigits (u.takeWhile Char.isDigit)) hpn
        (by rw [← Bool.not_eq_true]; exact hls)
      simpa using this

theorem parseTerm_prod_shape (flag : RoleFlag) (hflag : ¬ flag = .reacF) (u : Str)
    (hslash : ¬ '/' ∈ u) (harrow : containsArrow u = false) (hplus : ¬ '+' ∈ u)
    (hspace : ¬ ' ' ∈ u) (htab : ¬ '\t' ∈ u)
    (x : SimpleStep) (hok : parseTerm flag u = .ok x) :
    x.reactants = [] ∧ printableMap x.products := by
  rw [parseTerm_noSlash_eq flag u hslash] at hok
  by_cases hd1 : (u.takeWhile Char.isDigit).isEmpty
  · rw [if_pos hd1] at hok
    have hx : x = mkTermStep flag u (.int (1 : ℤ)) := (Except.ok.inj hok).symm
    subst hx
    rw [mkTermStep_prod flag hflag]
    have hpn : printableName u :=
      ⟨harrow, hplus, hspace, htab, hslash,
        takeWhile_eq_nil_head Char.isDigit u (List.isEmpty_iff.mp hd1)⟩
    by_cases hls : lsTagged u
    · rw [if_pos hls]
      exact ⟨rfl, printable_nil⟩
    · rw [if_neg hls]
      refine ⟨rfl, ?_⟩
      have := singleton_printable u 1 hpn (by rw [← Bool.not_eq_true]; exact hls)
      simpa using this
  · rw [if_neg hd1] at hok
    have hx : x = mkTermStep flag (u.dropWhile Char.isDigit)
        (.int ((natOfDigits (u.takeWhile Char.isDigit) : ℕ) : ℤ)) := (Except.ok.inj hok).symm
    subst hx
    rw [mkTermStep_prod flag hflag]
    set name := u.dropWhile Char.isDigit with hnamedef
    have hsub : ∀ c ∈ name, c ∈ u := fun c hc =>
      (List.dropWhile_suffix Char.isDigit).subset hc
    have hpn : printableName name := by
      refine ⟨noArrow_within name u (List.dropWhile_suffix Char.isDigit).isInfix harrow,
        fun hm => hplus (hsub _ hm), fun hm => hspace (hsub _ hm),
        fun hm => htab (hsub _ hm), fun hm => hslash (hsub _ hm),
        fun c hc => head_dropWhile_false Char.isDigit u c hc⟩
    by_cases hls : lsTagged name
    · rw [if_pos hls]
      exact ⟨rfl, printable_nil⟩
    · rw [if_neg hls]
      refine ⟨rfl, ?_⟩
      have := singleton_printable name (natOfDigits (u.takeWhile Char.isDigit)) hpn
        (by rw [← Bool.not_eq_true]; exact hls)
      simpa using this

theorem dictAddition_printable (x y : StoichMap) (hx : printableMap x) (hy : printableMap y) :
    printableMap (dictAddition x y) := by
  rcases hx with ⟨hxnd, hxe⟩
  rcases hy with ⟨hynd, hye⟩
  constructor
  · unfold dictAddition
    rw [List.map_append]
    have h1 : (x.map (fun kv =>
        match alLookup y kv.1 with
        | some v => (kv.1, pyAdd kv.2 v)
        | none => kv)).map Prod.fst = x.map Prod.fst := by
      rw [List.map_map]
      apply List.map_congr_left
      intro kv _
      show (match alLookup y kv.1 with
        | some v => (kv.1, pyAdd kv.2 v)
        | none => kv).1 = kv.1
      rcases alLookup y kv.1 with - | v
      · rfl
      · rfl
    have h2 : (((y.filter (fun kv => !alMem x kv.1)).map
        (fun kv => (kv.1, pyAdd (.int 0) kv.2)))).map Prod.fst =
        (y.filter (fun kv => !alMem x kv.1)).map Prod.fst := by
      rw [List.map_map]
      apply List.map_congr_left
      intro kv _
      rfl
    rw [h1, h2]
    rw [List.nodup_append]
    refine ⟨hxnd, ?_, ?_⟩
    · have hsub : (y.filter (fun kv => !alMem x kv.1)).Sublist y := List.filter_sublist y
      exact List.Nodup.sublist (hsub.map Prod.fst) hynd
    · intro k hk1 hk2
      rcases List.mem_map.mp hk2 with ⟨kv, hkv, hkv1⟩
      have hmem := (List.mem_filter.mp hkv).2
      rcases List.mem_map.mp hk1 with ⟨kv', hkv', hkv'1⟩
      unfold alMem at hmem
      have hnone : alLookup x kv.1 = none := by
        rcases hlk : alLookup x kv.1 with - | v
        · rfl
        · rw [hlk] at hmem
          simp at hmem
      exact (alLookup_eq_none x kv.1).mp hnone kv' hkv' (hkv'1.trans hkv1.symm)
  · intro kv hkv
    unfold dictAddition at hkv
    rcases List.mem_append.mp hkv with hm | hm
    · rcases List.mem_map.mp hm with ⟨kv0, hkv0, heq⟩
      rcases hlk : alLookup y kv0.1 with - | v
      · rw [hlk] at heq
        subst heq
        exact hxe kv0 hkv0
      · rw [hlk] at heq
        subst heq
        rcases hxe kv0 hkv0 with ⟨hn, hls, n0, hc0⟩
        rcases hye (kv0.1, v) (alLookup_mem y kv0.1 v hlk) with ⟨-, -, n1, hc1⟩
        refine ⟨hn, hls, n0 + n1, ?_⟩
        show pyAdd kv0.2 v = PyNum.int ((n0 + n1 : ℕ) : ℤ)
        rw [hc0]
        simp only at hc1
        rw [hc1]
        show PyNum.int ((n0 : ℤ) + (n1 : ℤ)) = PyNum.int ((n0 + n1 : ℕ) : ℤ)
        rw [Int.natCast_add]
    · rcases List.mem_map.mp hm with ⟨kv0, hkv0, heq⟩
      subst heq
      rcases hye kv0 (List.mem_of_mem_filter hkv0) with ⟨hn, hls, n0, hc0⟩
      refine ⟨hn, hls, n0, ?_⟩
      show pyAdd (.int 0) kv0.2 = PyNum.int ((n0 : ℕ) : ℤ)
      rw [hc0]
      show PyNum.int (0 + (n0 : ℤ)) = PyNum.int ((n0 : ℕ) : ℤ)
      rw [zero_add]

theorem stepAdd_reacSide (a b : SimpleStep)
    (ha : a.products = [] ∧ printableMap a.reactants)
    (hb : b.products = [] ∧ printableMap b.reactants) :
    (stepAdd a b).products = [] ∧ printableMap (stepAdd a b).reactants := by
  unfold stepAdd
  rw [ha.1, hb.1, dictAddition_nil_right]
  have hd : printableMap (dictAddition a.reactants b.reactants) :=
    dictAddition_printable _ _ ha.2 hb.2
  rw [mk_noop _ [] (fun kv hkv => (hd.2 kv hkv).2.1) (by
      rcases hd with ⟨hnd, -⟩
      exact hnd) (by simp) List.nodup_nil]
  exact ⟨rfl, hd⟩

theorem stepAdd_prodSide (a b : SimpleStep)
    (ha : a.reactants = [] ∧ printableMap a.products)
    (hb : b.reactants = [] ∧ printableMap b.products) :
    (stepAdd a b).reactants = [] ∧ printableMap (stepAdd a b).products := by
  unfold stepAdd
  rw [ha.1, hb.1, dictAddition_nil_right]
  have hd : printableMap (dictAddition a.products b.products) :=
    dictAddition_printable _ _ ha.2 hb.2
  rw [mk_noop [] _ (by simp) List.nodup_nil (fun kv hkv => (hd.2 kv hkv).2.1) (by
      rcases hd with ⟨hnd, -⟩
      exact hnd)]
  exact ⟨rfl, hd⟩

theorem sumSteps_reacSide (l : List SimpleStep)
    (hl : ∀ st ∈ l, st.products = [] ∧ printableMap st.reactants) :
    (sumSteps l).products = [] ∧ printableMap (sumSteps l).reactants := by
  cases l with
  | nil => exact ⟨rfl, printable_nil⟩
  | cons h t =>
    unfold sumSteps
    have hfold : ∀ (t' : List SimpleStep) (acc : SimpleStep),
        acc.products = [] ∧ printableMap acc.reactants →
        (∀ st ∈ t', st.products = [] ∧ printableMap st.reactants) →
        (t'.foldl stepAdd acc).products = [] ∧ printableMap (t'.foldl stepAdd acc).reactants := by
      intro t'
      induction t' with
      | nil => intro acc hacc _; exact hacc
      | cons s t'' ih =>
        intro acc hacc hall
        simp only [List.foldl_cons]
        exact ih (stepAdd acc s)
          (stepAdd_reacSide acc s hacc (hall s (List.mem_cons_self _ _)))
          (fun st hst => hall st (List.mem_cons_of_mem _ hst))
    exact hfold t h (hl h (List.mem_cons_self _ _))
      (fun st hst => hl st (List.mem_cons_of_mem _ hst))

theorem sumSteps_prodSide (l : List SimpleStep)
    (hl : ∀ st ∈ l, st.reactants = [] ∧ printableMap st.products) :
    (sumSteps l).reactants = [] ∧ printableMap (sumSteps l).products := by
  cases l with
  | nil => exact ⟨rfl, printable_nil⟩
  | cons h t =>
    unfold sumSteps
    have hfold : ∀ (t' : List SimpleStep) (acc : SimpleStep),
        acc.reactants = [] ∧ printableMap acc.products →
        (∀ st ∈ t', st.reactants = [] ∧ printableMap st.products) →
        (t'.foldl stepAdd acc).reactants = [] ∧ printableMap (t'.foldl stepAdd acc).products := by
      intro t'
      induction t' with
      | nil => intro acc hacc _; exact hacc
      | cons s t'' ih =>
        intro acc hacc hall
        simp only [List.foldl_cons]
        exact ih (stepAdd acc s)
          (stepAdd_prodSide acc s hacc (hall s (List.mem_cons_self _ _)))
          (fun st hst => hall st (List.mem_cons_of_mem _ hst))
    exact hfold t h (hl h (List.mem_cons_self _ _))
      (fun st hst => hl st (List.mem_cons_of_mem _ hst))

theorem parseSide_reac_shape (r : Str) (hslash : ¬ '/' ∈ r)
    (harrow : containsArrow r = false) (hspace : ¬ ' ' ∈ r) (htab : ¬ '\t' ∈ r)
    (sr : SimpleStep) (hok : parseSide .reacF r = .ok sr) :
    sr.products = [] ∧ printableMap sr.reactants := by
  rw [parseSide_eq] at hok
  rcases hm : (splitOnChar '+' r).mapM (parseTerm .reacF) with e | res
  · rw [hm] at hok
    cases hok
  · rw [hm] at hok
    have hsr : sr = sumSteps res := (Except.ok.inj hok).symm
    subst hsr
    apply sumSteps_reacSide
    intro st hst
    rcases mapM_ok_forall _ _ _ hm st hst with ⟨u, hu, hfu⟩
    rcases splitOnChar_parts '+' r u hu with ⟨hup, husub, huarr⟩
    exact parseTerm_reac_shape u (fun hmem => hslash (husub _ hmem)) (huarr harrow) hup
      (fun hmem => hspace (husub _ hmem)) (fun hmem => htab (husub _ hmem)) st hfu

theorem parseSide_prod_shape (p : Str) (hslash : ¬ '/' ∈ p)
    (harrow : containsArrow p = false) (hspace : ¬ ' ' ∈ p) (htab : ¬ '\t' ∈ p)
    (sp : SimpleStep) (hok : parseSide .prodF p = .ok sp) :
    sp.reactants = [] ∧ printableMap sp.products := by
  rw [parseSide_eq] at hok
  rcases hm : (splitOnChar '+' p).mapM (parseTerm .prodF) with e | res
  · rw [hm] at hok
    cases hok
  · rw [hm] at hok
    have hsp : sp = sumSteps res := (Except.ok.inj hok).symm
    subst hsp
    apply sumSteps_prodSide
    intro st hst
    rcases mapM_ok_forall _ _ _ hm st hst with ⟨u, hu, hfu⟩
    rcases splitOnChar_parts '+' p u hu with ⟨hup, husub, huarr⟩
    exact parseTerm_prod_shape .prodF (by intro h; cases h) u
      (fun hmem => hslash (husub _ hmem)) (huarr harrow) hup
      (fun hmem => hspace (husub _ hmem)) (fun hmem => htab (husub _ hmem)) st hfu

/-! ### Printing lemmas: SimpleStep.__str__ and the reparse -/

theorem intRepr_natCast (n : ℕ) : intRepr ((n : ℕ) : ℤ) = natRepr n := by
  unfold intRepr
  rw [if_neg (not_lt.mpr (Int.natCast_nonneg n)), Int.toNat_natCast]

theorem pyNumRepr_intNat (n : ℕ) : pyNumRepr (PyNum.int ((n : ℕ) : ℤ)) = natRepr n := by
  show intRepr ((n : ℕ) : ℤ) = natRepr n
  exact intRepr_natCast n

theorem digit_not_special (c : Char) (h : c.isDigit = true) :
    ¬ c = ' ' ∧ ¬ c = '\t' ∧ ¬ c = '+' ∧ ¬ c = '-' ∧ ¬ c = '/' := by
  refine ⟨?_, ?_, ?_, ?_, ?_⟩ <;> intro he <;> rw [he] at h <;> exact absurd h (by decide)

theorem lastMem {α : Type} : ∀ (l : List α) (a : α), l.getLast? = some a → a ∈ l
  | [], _, h => by cases h
  | [x], a, h => by
    have hx : x = a := Option.some.inj h
    exact hx ▸ List.mem_singleton.mpr rfl
  | x :: y :: t, a, h => by
    rw [List.getLast?_cons_cons] at h
    exact List.mem_cons_of_mem _ (lastMem (y :: t) a h)

theorem pyStrip_joinSep (sep : Str) :
    ∀ ts : List Str, pyStrip (joinSep sep ts) = joinSep (pyStrip sep) (ts.map pyStrip)
  | [] => rfl
  | [t] => rfl
  | t :: t2 :: rest => by
    show pyStrip (t ++ sep ++ joinSep sep (t2 :: rest)) =
      pyStrip t ++ pyStrip sep ++ joinSep (pyStrip sep) ((t2 :: rest).map pyStrip)
    rw [pyStrip_append, pyStrip_append, pyStrip_joinSep sep (t2 :: rest)]

theorem noArrow_joinSep_plus :
    ∀ ts : List Str, (∀ t ∈ ts, containsArrow t = false) →
      containsArrow (joinSep ['+'] ts) = false
  | [], _ => rfl
  | [t], h => h t (List.mem_singleton.mpr rfl)
  | t :: t2 :: rest, h => by
    have hrest : containsArrow (joinSep ['+'] (t2 :: rest)) = false :=
      noArrow_joinSep_plus (t2 :: rest) (fun x hx => h x (List.mem_cons_of_mem _ hx))
    have hmid : containsArrow ('+' :: joinSep ['+'] (t2 :: rest)) = false := by
      rw [containsArrow_cons_ne '+' _ (by decide)]
      exact hrest
    show containsArrow (t ++ ['+'] ++ joinSep ['+'] (t2 :: rest)) = false
    rw [List.append_assoc, List.singleton_append]
    refine noArrow_append t _ (h t (List.mem_cons_self _ _)) hmid ?_
    intro hcr
    have h2 := hcr.2
    rw [List.head?_cons] at h2
    simp at h2

theorem splitArrow_sep : ∀ (a b : Str), containsArrow a = false → containsArrow b = false →
    splitArrow (a ++ '-' :: '>' :: b) = [a, b]
  | [], b, _, hb => by
    rw [List.nil_append, splitArrow, if_pos ⟨rfl, rfl⟩, noArrow_splitArrow b hb]
  | [c], b, _, hb => by
    rw [List.singleton_append, splitArrow,
      if_neg (fun hpair => absurd hpair.2 (by decide)),
      splitArrow, if_pos ⟨rfl, rfl⟩, noArrow_splitArrow b hb]
    rfl
  | c :: d :: t, b, ha, hb => by
    rw [containsArrow_cons_cons] at ha
    rcases Bool.or_eq_false_iff.mp ha with ⟨h1, h2⟩
    have hnot : ¬ (c = '-' ∧ d = '>') := by
      intro ⟨hc, hd⟩
      rw [hc, hd] at h1
      simp at h1
    rw [List.cons_append, List.cons_append, splitArrow, if_neg hnot, ← List.cons_append,
      splitArrow_sep (d :: t) b h2 hb]
    rfl

theorem parseTerm_print (flag : RoleFlag) (name : Str) (n : ℕ) (hpn : printableName name) :
    parseTerm flag (natRepr n ++ name) = .ok (mkTermStep flag name (.int (n : ℤ))) := by
  have hdig := natRepr_digits n
  have hhead : ∀ c, name.head? = some c → c.isDigit = false := hpn.2.2.2.2.2
  have hslash : ¬ '/' ∈ natRepr n ++ name := by
    intro hm
    rcases List.mem_append.mp hm with h | h
    · exact absurd (hdig '/' h) (by decide)
    · exact hpn.2.2.2.2.1 h
  rw [parseTerm_noSlash_eq flag _ hslash,
    takeWhile_append_all Char.isDigit (natRepr n) name hdig hhead,
    dropWhile_append_all Char.isDigit (natRepr n) name hdig hhead,
    if_neg (fun hempty => natRepr_ne_nil n (List.isEmpty_iff.mp hempty)),
    natOfDigits_natRepr]

theorem mapM_print (flag : RoleFlag) :
    ∀ m : StoichMap,
      (∀ kv ∈ m, printableName kv.1 ∧ ∃ c : ℕ, kv.2 = PyNum.int (c : ℤ)) →
      (m.map (fun kv => pyNumRepr kv.2 ++ kv.1)).mapM (parseTerm flag) =
        .ok (m.map (fun kv => mkTermStep flag kv.1 kv.2))
  | [], _ => rfl
  | kv :: t, h => by
    rcases h kv (List.mem_cons_self _ _) with ⟨hpn, n, hn⟩
    have hterm : parseTerm flag (pyNumRepr kv.2 ++ kv.1) = .ok (mkTermStep flag kv.1 kv.2) := by
      rw [hn, pyNumRepr_intNat]
      exact parseTerm_print flag kv.1 n hpn
    rw [List.map_cons, List.map_cons, List.mapM_cons, hterm,
      mapM_print flag t (fun x hx => h x (List.mem_cons_of_mem _ hx))]
    rfl

theorem term_clean (m : StoichMap) (hm : printableMap m) :
    ∀ t ∈ m.map (fun kv => pyNumRepr kv.2 ++ kv.1),
      (¬ ' ' ∈ t) ∧ (¬ '\t' ∈ t) ∧ (¬ '+' ∈ t) ∧ containsArrow t = false := by
  intro t ht
  rcases List.mem_map.mp ht with ⟨kv, hkv, rfl⟩
  rcases hm.2 kv hkv with ⟨hpn, hls, n, hn⟩
  obtain ⟨hparr, hpplus, hpsp, hptab, hpsl, hphead⟩ := hpn
  rw [hn, pyNumRepr_intNat]
  refine ⟨?_, ?_, ?_, ?_⟩
  · intro hmem
    rcases List.mem_append.mp hmem with h | h
    · exact (digit_not_special ' ' (natRepr_digits n ' ' h)).1 rfl
    · exact hpsp h
  · intro hmem
    rcases List.mem_append.mp hmem with h | h
    · exact (digit_not_special '\t' (natRepr_digits n '\t' h)).2.1 rfl
    · exact hptab h
  · intro hmem
    rcases List.mem_append.mp hmem with h | h
    · exact (digit_not_special '+' (natRepr_digits n '+' h)).2.2.1 rfl
    · exact hpplus h
  · refine noArrow_append (natRepr n) kv.1
      (noDash_noArrow _
        (fun hd => (digit_not_special '-' (natRepr_digits n '-' hd)).2.2.2.1 rfl))
      hparr ?_
    intro hcr
    have hdm := lastMem (natRepr n) '-' hcr.1
    exact (digit_not_special '-' (natRepr_digits n '-' hdm)).2.2.2.1 rfl

theorem foldl_singles_reac :
    ∀ (rest : List (Str × PyNum)) (acc : StoichMap),
      ((acc ++ rest).map Prod.fst).Nodup →
      (∀ kv ∈ acc ++ rest, lsTagged kv.1 = false ∧ ∃ c : ℕ, kv.2 = PyNum.int (c : ℤ)) →
      (rest.map (fun kv => mkTermStep .reacF kv.1 kv.2)).foldl stepAdd
          ⟨acc, [], [], [], 0, 0⟩ =
        ⟨acc ++ rest, [], [], [], 0, 0⟩
  | [], acc, _, _ => by rw [List.map_nil, List.foldl_nil, List.append_nil]
  | kv :: rest, acc, hnd, hall => by
    rcases hall kv (List.mem_append_right _ (List.mem_cons_self _ _)) with ⟨hls, n, hn⟩
    have hfresh : alLookup acc kv.1 = none := by
      rw [alLookup_eq_none]
      intro kv' hkv' he
      rw [List.map_append] at hnd
      have hd := (List.nodup_append.mp hnd).2.2
      exact hd (List.mem_map_of_mem Prod.fst hkv')
        (by rw [List.map_cons]; exact he ▸ List.mem_cons_self _ _)
    have hstep : stepAdd ⟨acc, [], [], [], 0, 0⟩ (mkTermStep .reacF kv.1 kv.2) =
        ⟨acc ++ [kv], [], [], [], 0, 0⟩ := by
      rw [mkTermStep_reac, if_neg (by simp [hls])]
      show mkSimpleStep (dictAddition acc [(kv.1, kv.2)]) (dictAddition [] []) =
        (⟨acc ++ [kv], [], [], [], 0, 0⟩ : SimpleStep)
      rw [dictAddition_fresh_single acc kv.1 kv.2 hfresh ⟨n, hn⟩, dictAddition_nil_right]
      refine mk_noop (acc ++ [(kv.1, kv.2)]) [] ?_ ?_ (by simp) List.nodup_nil
      · intro x hx
        rcases List.mem_append.mp hx with h | h
        · exact (hall x (List.mem_append_left _ h)).1
        · rcases List.mem_singleton.mp h with rfl
          exact hls
      · have hsub : (acc ++ [kv]).Sublist (acc ++ kv :: rest) :=
          List.Sublist.append_left (List.cons_sublist_cons.mpr (List.nil_sublist rest)) acc
        exact List.Nodup.sublist (hsub.map Prod.fst) hnd
    have hnd2 : (((acc ++ [kv]) ++ rest).map Prod.fst).Nodup := by
      rw [List.append_assoc, List.singleton_append]
      exact hnd
    have hall2 : ∀ x ∈ (acc ++ [kv]) ++ rest,
        lsTagged x.1 = false ∧ ∃ c : ℕ, x.2 = PyNum.int (c : ℤ) := by
      intro x hx
      rw [List.append_assoc, List.singleton_append] at hx
      exact hall x hx
    rw [List.map_cons, List.foldl_cons, hstep,
      foldl_singles_reac rest (acc ++ [kv]) hnd2 hall2,
      List.append_assoc, List.singleton_append]

theorem foldl_singles_prod :
    ∀ (rest : List (Str × PyNum)) (acc : StoichMap),
      ((acc ++ rest).map Prod.fst).Nodup →
      (∀ kv ∈ acc ++ rest, lsTagged kv.1 = false ∧ ∃ c : ℕ, kv.2 = PyNum.int (c : ℤ)) →
      (rest.map (fun kv => mkTermStep .prodF kv.1 kv.2)).foldl stepAdd
          ⟨[], acc, [], [], 0, 0⟩ =
        ⟨[], acc ++ rest, [], [], 0, 0⟩
  | [], acc, _, _ => by rw [List.map_nil, List.foldl_nil, List.append_nil]
  | kv :: rest, acc, hnd, hall => by
    rcases hall kv (List.mem_append_right _ (List.mem_cons_self _ _)) with ⟨hls, n, hn⟩
    have hfresh : alLookup acc kv.1 = none := by
      rw [alLookup_eq_none]
      intro kv' hkv' he
      rw [List.map_append] at hnd
      have hd := (List.nodup_append.mp hnd).2.2
      exact hd (List.mem_map_of_mem Prod.fst hkv')
        (by rw [List.map_cons]; exact he ▸ List.mem_cons_self _ _)
    have hstep : stepAdd ⟨[], acc, [], [], 0, 0⟩ (mkTermStep .prodF kv.1 kv.2) =
        ⟨[], acc ++ [kv], [], [], 0, 0⟩ := by
      rw [mkTermStep_prod .prodF (fun h => RoleFlag.noConfusion h), if_neg (by simp [hls])]
      show mkSimpleStep (dictAddition [] []) (dictAddition acc [(kv.1, kv.2)]) =
        (⟨[], acc ++ [kv], [], [], 0, 0⟩ : SimpleStep)
      rw [dictAddition_fresh_single acc kv.1 kv.2 hfresh ⟨n, hn⟩, dictAddition_nil_right]
      refine mk_noop [] (acc ++ [(kv.1, kv.2)]) (by simp) List.nodup_nil ?_ ?_
      · intro x hx
        rcases List.mem_append.mp hx with h | h
        · exact (hall x (List.mem_append_left _ h)).1
        · rcases List.mem_singleton.mp h with rfl
          exact hls
      · have hsub : (acc ++ [kv]).Sublist (acc ++ kv :: rest) :=
          List.Sublist.append_left (List.cons_sublist_cons.mpr (List.nil_sublist rest)) acc
        exact List.Nodup.sublist (hsub.map Prod.fst) hnd
    have hnd2 : (((acc ++ [kv]) ++ rest).map Prod.fst).Nodup := by
      rw [List.append_assoc, List.singleton_append]
      exact hnd
    have hall2 : ∀ x ∈ (acc ++ [kv]) ++ rest,
        lsTagged x.1 = false ∧ ∃ c : ℕ, x.2 = PyNum.int (c : ℤ) := by
      intro x hx
      rw [List.append_assoc, List.singleton_append] at hx
      exact hall x hx
    rw [List.map_cons, List.foldl_cons, hstep,
      foldl_singles_prod rest (acc ++ [kv]) hnd2 hall2,
      List.append_assoc, List.singleton_append]

theorem parseSide_print_reac (m : StoichMap) (hm : printableMap m) (hne : m ≠ []) :
    parseSide .reacF (joinSep ['+'] (m.map (fun kv => pyNumRepr kv.2 ++ kv.1))) =
      .ok ⟨m, [], [], [], 0, 0⟩ := by
  have hterm := term_clean m hm
  rw [parseSide_eq,
    splitOnChar_joinSep '+' (m.map (fun kv => pyNumRepr kv.2 ++ kv.1))
      (by cases m with
          | nil => exact absurd rfl hne
          | cons kv t => simp)
      (fun t ht => (hterm t ht).2.2.1),
    mapM_print .reacF m (fun kv hkv => ⟨(hm.2 kv hkv).1, (hm.2 kv hkv).2.2⟩)]
  show Except.ok (sumSteps (m.map (fun kv => mkTermStep .reacF kv.1 kv.2))) =
    Except.ok ⟨m, [], [], [], 0, 0⟩
  cases m with
  | nil => exact absurd rfl hne
  | cons kv t =>
    rcases hm.2 kv (List.mem_cons_self _ _) with ⟨-, hls, -⟩
    show Except.ok ((t.map (fun kv => mkTermStep .reacF kv.1 kv.2)).foldl stepAdd
      (mkTermStep .reacF kv.1 kv.2)) = _
    rw [mkTermStep_reac, if_neg (by simp [hls]),
      foldl_singles_reac t [(kv.1, kv.2)] hm.1
        (fun x hx => ⟨(hm.2 x hx).2.1, (hm.2 x hx).2.2⟩)]
    rfl

theorem parseSide_print_prod (m : StoichMap) (hm : printableMap m) (hne : m ≠ []) :
    parseSide .prodF (joinSep ['+'] (m.map (fun kv => pyNumRepr kv.2 ++ kv.1))) =
      .ok ⟨[], m, [], [], 0, 0⟩ := by
  have hterm := term_clean m hm
  rw [parseSide_eq,
    splitOnChar_joinSep '+' (m.map (fun kv => pyNumRepr kv.2 ++ kv.1))
      (by cases m with
          | nil => exact absurd rfl hne
          | cons kv t => simp)
      (fun t ht => (hterm t ht).2.2.1),
    mapM_print .prodF m (fun kv hkv => ⟨(hm.2 kv hkv).1, (hm.2 kv hkv).2.2⟩)]
  show Except.ok (sumSteps (m.map (fun kv => mkTermStep .prodF kv.1 kv.2))) =
    Except.ok ⟨[], m, [], [], 0, 0⟩
  cases m with
  | nil => exact absurd rfl hne
  | cons kv t =>
    rcases hm.2 kv (List.mem_cons_self _ _) with ⟨-, hls, -⟩
    show Except.ok ((t.map (fun kv => mkTermStep .prodF kv.1 kv.2)).foldl stepAdd
      (mkTermStep .prodF kv.1 kv.2)) = _
    rw [mkTermStep_prod .prodF (fun h => RoleFlag.noConfusion h), if_neg (by simp [hls]),
      foldl_singles_prod t [(kv.1, kv.2)] hm.1
        (fun x hx => ⟨(hm.2 x hx).2.1, (hm.2 x hx).2.2⟩)]
    rfl

theorem str_to_step_two (s r p : Str) (h : containsArrow s = true)
    (hsp : splitArrow (pyStrip s) = [r, p]) (sr sp : SimpleStep)
    (hr : parseSide .reacF r = .ok sr) (hp : parseSide .prodF p = .ok sp) :
    str_to_step s = .ok (stepAdd sr sp) := by
  unfold str_to_step
  rw [h, if_pos rfl, hsp]
  show (parseSide .reacF r).bind (fun x => (parseSide .prodF p).bind
    (fun y => Except.ok (stepAdd x y))) = Except.ok (stepAdd sr sp)
  rw [hr, hp]
  rfl

theorem alLookup_self {β : Type} : ∀ (m : List (Str × β)), (m.map Prod.fst).Nodup →
    ∀ kv ∈ m, alLookup m kv.1 = some kv.2
  | [], _, kv, hkv => absurd hkv (List.not_mem_nil kv)
  | hd :: t, hnd, kv, hkv => by
    obtain ⟨k0, v0⟩ := hd
    rw [List.map_cons] at hnd
    have hnds := List.nodup_cons.mp hnd
    rcases List.mem_cons.mp hkv with rfl | hmem
    · simp [alLookup]
    · have hne : ¬ k0 = kv.1 := by
        intro he
        apply hnds.1
        rw [he]
        exact List.mem_map.mpr ⟨kv, hmem, rfl⟩
      show alLookup ((k0, v0) :: t) kv.1 = some kv.2
      unfold alLookup
      rw [if_neg hne]
      exact alLookup_self t hnds.2 kv hmem

theorem smEqB_refl (m : StoichMap) (hnd : (m.map Prod.fst).Nodup) : smEqB m m = true := by
  have hsub : smSubDict m m = true := by
    unfold smSubDict
    rw [List.all_eq_true]
    intro kv hkv
    show (match alLookup m kv.1 with
      | some v => pyNumEq kv.2 v
      | none => false) = true
    rw [alLookup_self m hnd kv hkv]
    show pyNumEq kv.2 kv.2 = true
    unfold pyNumEq
    exact beq_self_eq_true _
  unfold smEqB
  rw [hsub]
  rfl

theorem print_reparse (st : SimpleStep) (hr : printableMap st.reactants)
    (hp : printableMap st.products) (hrne : st.reactants ≠ []) (hpne : st.products ≠ []) :
    str_to_step (stepStr st) = .ok ⟨st.reactants, st.products, [], [], 0, 0⟩ := by
  have hctR := term_clean st.reactants hr
  have hctP := term_clean st.products hp
  have harr : containsArrow (stepStr st) = true := by
    unfold stepStr
    exact containsArrow_append_left _ _ (containsArrow_append_right _ _ (by decide))
  have hmapR : (st.reactants.map (fun kv => pyNumRepr kv.2 ++ kv.1)).map pyStrip =
      st.reactants.map (fun kv => pyNumRepr kv.2 ++ kv.1) := by
    rw [List.map_congr_left (fun t ht => pyStrip_clean t ((hctR t ht).1) ((hctR t ht).2.1))]
    exact List.map_id _
  have hmapP : (st.products.map (fun kv => pyNumRepr kv.2 ++ kv.1)).map pyStrip =
      st.products.map (fun kv => pyNumRepr kv.2 ++ kv.1) := by
    rw [List.map_congr_left (fun t ht => pyStrip_clean t ((hctP t ht).1) ((hctP t ht).2.1))]
    exact List.map_id _
  have hstrip : pyStrip (stepStr st) =
      joinSep ['+'] (st.reactants.map (fun kv => pyNumRepr kv.2 ++ kv.1)) ++
        '-' :: '>' :: joinSep ['+'] (st.products.map (fun kv => pyNumRepr kv.2 ++ kv.1)) := by
    unfold stepStr
    rw [pyStrip_append, pyStrip_append, pyStrip_joinSep, pyStrip_joinSep, hmapR, hmapP,
      show pyStrip [' ', '+', ' '] = ['+'] from by decide,
      show pyStrip [' ', '-', '>', ' '] = ['-', '>'] from by decide,
      List.append_assoc]
    rfl
  have hsplit : splitArrow (pyStrip (stepStr st)) =
      [joinSep ['+'] (st.reactants.map (fun kv => pyNumRepr kv.2 ++ kv.1)),
       joinSep ['+'] (st.products.map (fun kv => pyNumRepr kv.2 ++ kv.1))] := by
    rw [hstrip]
    exact splitArrow_sep _ _
      (noArrow_joinSep_plus _ (fun t ht => (hctR t ht).2.2.2))
      (noArrow_joinSep_plus _ (fun t ht => (hctP t ht).2.2.2))
  have h2 := str_to_step_two (stepStr st) _ _ harr hsplit
    ⟨st.reactants, [], [], [], 0, 0⟩ ⟨[], st.products, [], [], 0, 0⟩
    (parseSide_print_reac st.reactants hr hrne) (parseSide_print_prod st.products hp hpne)
  rw [h2]
  have hadd : stepAdd ⟨st.reactants, [], [], [], 0, 0⟩ ⟨[], st.products, [], [], 0, 0⟩ =
      (⟨st.reactants, st.products, [], [], 0, 0⟩ : SimpleStep) := by
    show mkSimpleStep (dictAddition st.reactants []) (dictAddition [] st.products) = _
    rw [dictAddition_nil_right,
      dictAddition_nil_left st.products (fun kv hkv => (hp.2 kv hkv).2.2)]
    exact mk_noop _ _ (fun kv hkv => (hr.2 kv hkv).2.1) hr.1
      (fun kv hkv => (hp.2 kv hkv).2.1) hp.1
  rw [hadd]

theorem pyStrip_no_ws (s : Str) : ∀ c ∈ pyStrip s, ¬ c = ' ' ∧ ¬ c = '\t' := by
  intro c hc
  have h := (List.mem_filter.mp hc).2
  constructor <;> intro he <;> rw [he] at h <;> exact absurd h (by decide)

/-- C6 counterexample: the valid equation text 1/2A->B parses to the step
with reactants A mapped to the float one half, but its printed form 0.5A -> B
reparses with coefficient 0 and species name .5A: the digit scanner of the
coefficient regex cannot re-read the decimal point that str produces for a
float coefficient, so the round trip yields a step that is not equal to the
first parse. -/
theorem C6_counterexample :
    (str_to_step ("1/2A->B".toList)).bind
      (fun st => (str_to_step (stepStr st)).map (fun st2 => stepEqB st2 st)) =
      .ok false := by
  decide

/-- C6 amended: the parsing round trip holds on the slash-free fragment.
Parsing a slash-free equation text that contains the arrow and has at least
one species on each side, then printing the step and parsing the printed
text again, returns a step equal to the first parse under the
stoichiometry-only step equality; with a slash coefficient the printed float
breaks the round trip (see the counterexample). -/
theorem C6_roundtrip (s : Str) (harrow : containsArrow s = true) (hslash : ¬ '/' ∈ s)
    (st : SimpleStep) (hok : str_to_step s = .ok st)
    (hrne : st.reactants ≠ []) (hpne : st.products ≠ []) :
    ∃ st', str_to_step (stepStr st) = .ok st' ∧ stepEqB st' st = true := by
  unfold str_to_step at hok
  rw [harrow, if_pos rfl] at hok
  rcases hsp : splitArrow (pyStrip s) with - | ⟨r, - | ⟨p, - | ⟨q, rest3⟩⟩⟩
  · rw [hsp] at hok
    cases hok
  · rw [hsp] at hok
    cases hok
  · rw [hsp] at hok
    have hok2 : ((parseSide .reacF r).bind (fun sr => (parseSide .prodF p).bind
        (fun sp => Except.ok (stepAdd sr sp)))) = .ok st := hok
    rcases hr0 : parseSide .reacF r with e | sr
    · rw [hr0] at hok2
      cases hok2
    rw [hr0] at hok2
    rcases hp0 : parseSide .prodF p with e | sp
    · rw [hp0] at hok2
      cases hok2
    rw [hp0] at hok2
    have hst : stepAdd sr sp = st := Except.ok.inj hok2
    obtain ⟨hrarr, hrsub⟩ := splitArrow_parts (pyStrip s) r
      (by rw [hsp]; exact List.mem_cons_self _ _)
    obtain ⟨hparr, hpsub⟩ := splitArrow_parts (pyStrip s) p
      (by rw [hsp]; exact List.mem_cons_of_mem _ (List.mem_cons_self _ _))
    have hrslash : ¬ '/' ∈ r := fun hm => hslash (mem_pyStrip _ _ (hrsub _ hm))
    have hpslash : ¬ '/' ∈ p := fun hm => hslash (mem_pyStrip _ _ (hpsub _ hm))
    have hrsp : ¬ ' ' ∈ r := fun hm => (pyStrip_no_ws s ' ' (hrsub _ hm)).1 rfl
    have hrtab : ¬ '\t' ∈ r := fun hm => (pyStrip_no_ws s '\t' (hrsub _ hm)).2 rfl
    have hpsp : ¬ ' ' ∈ p := fun hm => (pyStrip_no_ws s ' ' (hpsub _ hm)).1 rfl
    have hptab : ¬ '\t' ∈ p := fun hm => (pyStrip_no_ws s '\t' (hpsub _ hm)).2 rfl
    have hrshape := parseSide_reac_shape r hrslash hrarr hrsp hrtab sr hr0
    have hpshape := parseSide_prod_shape p hpslash hparr hpsp hptab sp hp0
    have hadd : stepAdd sr sp = ⟨sr.reactants, sp.products, [], [], 0, 0⟩ := by
      show mkSimpleStep (dictAddition sr.reactants sp.reactants)
        (dictAddition sr.products sp.products) = _
      rw [hrshape.1, hpshape.1, dictAddition_nil_right,
        dictAddition_nil_left sp.products (fun kv hkv => ((hpshape.2).2 kv hkv).2.2)]
      exact mk_noop _ _ (fun kv hkv => ((hrshape.2).2 kv hkv).2.1) (hrshape.2).1
        (fun kv hkv => ((hpshape.2).2 kv hkv).2.1) (hpshape.2).1
    have hstruct : st = ⟨sr.reactants, sp.products, [], [], 0, 0⟩ := hst.symm.trans hadd
    subst hstruct
    refine ⟨⟨sr.reactants, sp.products, [], [], 0, 0⟩, ?_, ?_⟩
    · exact print_reparse ⟨sr.reactants, sp.products, [], [], 0, 0⟩
        hrshape.2 hpshape.2 hrne hpne
    · show (smEqB sr.reactants sr.reactants && smEqB sp.products sp.products) = true
      rw [smEqB_refl sr.reactants (hrshape.2).1, smEqB_refl sp.products (hpshape.2).1]
      rfl
  · rw [hsp] at hok
    cases hok

/-- C6 witness: the equation text A -> B parses, prints and reparses to an
equal step. -/
theorem C6_witness :
    ∃ st', str_to_step (stepStr ⟨[(['A'], PyNum.int 1)], [(['B'], PyNum.int 1)],
        [], [], 0, 0⟩) = .ok st' ∧
      stepEqB st' ⟨[(['A'], PyNum.int 1)], [(['B'], PyNum.int 1)], [], [], 0, 0⟩ = true :=
  C6_roundtrip ("A -> B".toList) (by decide) (by decide)
    ⟨[(['A'], PyNum.int 1)], [(['B'], PyNum.int 1)], [], [], 0, 0⟩ (by decide)
    (by decide) (by decide)

end ReactionMechanizer
